import Mathlib

/-!
DRAM volume of Open CAS Linux (`modules/cas_cache/volume/vol_dram_dev_bottom.c`).

A shallow embedding of the DRAM bottom volume: the backing store manager
(`dram_dev_open_object`, `dram_dev_get_byte_length`), the buffer binding
(`dram_io_set_data`, `dram_io_get_data`) and the submission engine
(`dram_dev_submit_io`, `dram_dev_submit_flush`, `dram_dev_submit_discard`).

Modelling conventions.

* Memory is a function from byte index to byte value (`Nat → Nat`).  The backing
  store is `dobj.data` (`none` is the null pointer); index `a` is the byte at
  `dobj->data + a`.
* The caller buffer is a sequence of segments (`bio_vec`).  Each segment is its own
  region: the region reference (`bv_page`) of segment number `k` of a buffer is `k`,
  and `pages k o` is byte `o` of that region.
* The iterator functions `cas_io_iter_*`, the types `bio_vec`, `blk_data` and
  `bio_vec_iter`, and the flag macros are not part of the source file; the iterator is
  modelled from the specification of the buffer segment iterator, the flag macros are
  parameters.
* `uint32_t` and `uint64_t` arithmetic is arithmetic on `Nat` reduced modulo `2^32`
  and `2^64`; `unsigned long` is 64 bits wide (LP64 kernel).
* Loops take a fuel argument; `none` means the fuel ran out (or a null store was
  dereferenced by `memcpy`).
* `io->end(io, error)` appends `error` to the completion log `ended`.
-/

namespace DramDev

/-! ## Constants of the environment -/

/-- Linux errno value `ENOMEM`. -/
def ENOMEM : Int := 12

/-- Linux errno value `ENOBUFS`. -/
def ENOBUFS : Int := 105

/-- OCF direction constant `OCF_READ`. -/
def OCF_READ : Nat := 0

/-- OCF direction constant `OCF_WRITE`. -/
def OCF_WRITE : Nat := 1

/-- Modelled from the spec: the two request-flag tests `CAS_IS_WRITE_FLUSH` and
`CAS_IS_WRITE_FLUSH_FUA` are kernel-version dependent macros that are not part of the
source file; they are taken as parameters. -/
structure cas_flag_tests where
  CAS_IS_WRITE_FLUSH : Nat → Bool
  CAS_IS_WRITE_FLUSH_FUA : Nat → Bool

/-! ## Data model -/

/-- Modelled from the spec: one buffer segment, "an intra-region starting offset, and a
length".  The region reference of a segment is its position in the buffer
description. -/
structure bio_vec where
  bv_offset : Nat
  bv_len : Nat
  deriving DecidableEq

/-- Modelled from the spec: a buffer description, "an ordered sequence of segments". -/
structure blk_data where
  vec : List bio_vec
  deriving DecidableEq

/-- Number of segments of a buffer description (`data->size`). -/
def blk_data.size (d : blk_data) : Nat := d.vec.length

/-- Modelled from the spec: iterator state, "current segment index, current
intra-segment offset, remaining segment count".  `vec` holds the remaining segments,
the current one first; `offset` counts the bytes of the current segment already
passed. -/
structure bio_vec_iter where
  vec : List bio_vec
  idx : Nat
  offset : Nat
  deriving DecidableEq

/-- The private data of a volume, `struct dram_object`. -/
structure dram_object where
  data : Option (Nat → Nat)
  capacity : Nat

/-- The private data of a request, `struct dram_io`. -/
structure dram_io where
  data : Option blk_data
  iter : bio_vec_iter
  deriving DecidableEq

/-- The fields of `struct ocf_io` the volume reads. -/
structure ocf_io where
  addr : Nat
  bytes : Nat
  dir : Nat
  flags : Nat
  deriving DecidableEq

/-- Everything a submission can read or change: the volume, the request's private data,
the memory of the buffer regions and the log of `io->end` calls. -/
structure dram_state where
  dobj : dram_object
  dio : dram_io
  pages : Nat → Nat → Nat
  ended : List Int

/-! ## Buffer segment iterator -/

/-- Modelled from the spec: number of bytes still reachable from a cursor that has
passed `off` bytes of the first of the remaining segments. -/
def iter_bytes_left : List bio_vec → Nat → Nat
  | [], _ => 0
  | s :: rest, off => (s.bv_len - off) + iter_bytes_left rest 0

/-- Modelled from the spec: location (region, byte offset in the region) of the `i`-th
byte reachable from the cursor, in the order the segments are concatenated. -/
def iter_byte_at : List bio_vec → Nat → Nat → Nat → Option (Nat × Nat)
  | [], _, _, _ => none
  | s :: rest, idx, off, i =>
    if i < s.bv_len - off then some (idx, s.bv_offset + off + i)
    else iter_byte_at rest (idx + 1) 0 (i - (s.bv_len - off))

/-- Bytes remaining in the buffer from the iterator's position. -/
def bio_vec_iter.bytes_left (iter : bio_vec_iter) : Nat :=
  iter_bytes_left iter.vec iter.offset

/-- Location of the `i`-th remaining byte of the buffer. -/
def bio_vec_iter.byte_at (iter : bio_vec_iter) (i : Nat) : Option (Nat × Nat) :=
  iter_byte_at iter.vec iter.idx iter.offset i

/-- Value of the `i`-th remaining byte of the buffer in the memory `pages`
(`0` past the end of the buffer). -/
def bio_vec_iter.byte (iter : bio_vec_iter) (pages : Nat → Nat → Nat) (i : Nat) : Nat :=
  match iter.byte_at i with
  | some (p, o) => pages p o
  | none => 0

/-- Modelled from the spec: `has_next`, "true while at least one byte remains reachable
across the remaining segments". -/
def cas_io_iter_is_next (iter : bio_vec_iter) : Bool :=
  decide (0 < iter.bytes_left)

/-- Modelled from the spec: region of `current_segment`. -/
def cas_io_iter_current_page (iter : bio_vec_iter) : Nat := iter.idx

/-- Modelled from the spec: offset of `current_segment`, where the usable sub-range of
the current segment starts inside its region. -/
def cas_io_iter_current_offset (iter : bio_vec_iter) : Nat :=
  match iter.vec with
  | [] => 0
  | s :: _ => s.bv_offset + iter.offset

/-- Modelled from the spec: length of `current_segment`, "the remaining bytes in that
segment from the current offset, not the segment's full length". -/
def cas_io_iter_current_length (iter : bio_vec_iter) : Nat :=
  match iter.vec with
  | [] => 0
  | s :: _ => s.bv_len - iter.offset

/-- Modelled from the spec: the cursor of a fresh iterator stands at the start of the
first of `vec_size` segments. -/
def cas_io_iter_init (vec : List bio_vec) (vec_size : Nat) : bio_vec_iter :=
  { vec := vec.take vec_size, idx := 0, offset := 0 }

/-- Modelled from the spec: `advance`, on the remaining segments.  While bytes are still
to be moved, the cursor passes `min` of them and of what the current segment has left;
a segment passed to its end is left for the next one. -/
def iter_move : List bio_vec → Nat → Nat → Nat → bio_vec_iter × Nat
  | [], idx, off, _ => ({ vec := [], idx := idx, offset := off }, 0)
  | s :: rest, idx, off, bytes =>
    if bytes = 0 then ({ vec := s :: rest, idx := idx, offset := off }, 0)
    else if bytes < s.bv_len - off then
      ({ vec := s :: rest, idx := idx, offset := off + bytes }, bytes)
    else
      let r := iter_move rest (idx + 1) 0 (bytes - (s.bv_len - off))
      (r.1, (s.bv_len - off) + r.2)

/-- Modelled from the spec: `advance(n_bytes) -> actual_advanced_bytes`, "moves the
cursor forward by up to `n_bytes`, crossing segment boundaries as needed; returns the
number of bytes actually advanced". -/
def cas_io_iter_move (iter : bio_vec_iter) (bytes : Nat) : bio_vec_iter × Nat :=
  iter_move iter.vec iter.idx iter.offset bytes

/-! ## Backing store manager -/

/-- The size `dobj->capacity << 30` that `dram_dev_open_object` passes to `vmalloc`, an
`unsigned long`. -/
def dram_dev_open_size (capacity : Nat) : Nat := (capacity <<< 30) % 2 ^ 64

/-- `dram_dev_open_object`: the capacity is the `unsigned int` stored in the volume
identity; the store is what `vmalloc` returns for `capacity << 30` bytes (`none` when it
returns no memory). -/
def dram_dev_open_object (vmalloc : Nat → Option (Nat → Nat)) (uuid_data : Nat)
    (_dobj : dram_object) : dram_object × Int :=
  let capacity := (uuid_data % 2 ^ 32) % 2 ^ 64
  let data := vmalloc (dram_dev_open_size capacity)
  if data.isNone then ({ data := data, capacity := capacity }, -ENOMEM)
  else ({ data := data, capacity := capacity }, 0)

/-- `dram_dev_get_max_io_size`. -/
def dram_dev_get_max_io_size (_dobj : dram_object) : Nat := (128 * 1024) % 2 ^ 32

/-- `dram_dev_get_byte_length`: `uint64_t l = dobj->capacity; return l << 30`. -/
def dram_dev_get_byte_length (dobj : dram_object) : Nat :=
  let l := dobj.capacity % 2 ^ 64
  (l <<< 30) % 2 ^ 64

/-! ## Buffer binding -/

/-- `dram_io_set_data`: store the buffer reference; for a non-null buffer initialise the
iterator and move it to `offset`. -/
def dram_io_set_data (dio : dram_io) (ctx_data : Option blk_data) (offset : Nat) :
    dram_io × Int :=
  match ctx_data with
  | some data =>
    let mv := cas_io_iter_move (cas_io_iter_init data.vec data.size) offset
    if offset != mv.2 then ({ data := some data, iter := mv.1 }, -ENOBUFS)
    else ({ data := some data, iter := mv.1 }, 0)
  | none => ({ dio with data := none }, 0)

/-- `dram_io_get_data`. -/
def dram_io_get_data (dio : dram_io) : Option blk_data := dio.data

/-! ## Submission engine -/

/-- `io->end(io, error)`. -/
def ocf_io_end (st : dram_state) (error : Int) : dram_state :=
  { st with ended := st.ended ++ [error] }

/-- `dram_dev_submit_flush`. -/
def dram_dev_submit_flush (st : dram_state) : dram_state := ocf_io_end st 0

/-- `dram_dev_submit_discard`. -/
def dram_dev_submit_discard (st : dram_state) : dram_state := ocf_io_end st 0

/-- `memcpy(dst + d, src + s, n)` on byte memories. -/
def memcpy (dst : Nat → Nat) (d : Nat) (src : Nat → Nat) (s : Nat) (n : Nat) : Nat → Nat :=
  fun a => if d ≤ a ∧ a < d + n then src (s + (a - d)) else dst a

/-- One call of `memcpy` made by the copy loop: the store range `[addr, addr + length)`,
the buffer range `[offset, offset + length)` of region `page`, and the length `avail`
the iterator reported for its current segment. -/
structure copy_record where
  dir : Nat
  addr : Nat
  page : Nat
  offset : Nat
  length : Nat
  avail : Nat
  deriving DecidableEq

/-- The locals of `dram_dev_submit_io` inside the copy loop, with the two memories and
the list of the `memcpy` calls made so far. -/
structure copy_state where
  iter : bio_vec_iter
  bytes : Nat
  addr : Nat
  error : Int
  data : Option (Nat → Nat)
  pages : Nat → Nat → Nat
  copies : List copy_record

/-- The `DO MEMCPY` statement: a read copies store to segment, a write segment to store,
any other direction copies nothing.  `none` when a copy dereferences a null store. -/
def dram_memcpy (dir : Nat) (data : Option (Nat → Nat)) (pages : Nat → Nat → Nat)
    (page offset addr length : Nat) : Option (Option (Nat → Nat) × (Nat → Nat → Nat)) :=
  if dir = OCF_READ then
    match data with
    | some store =>
      some (some store,
        fun p => if p = page then memcpy (pages p) offset store addr length else pages p)
    | none => none
  else if dir = OCF_WRITE then
    match data with
    | some store => some (some (memcpy store addr (pages page) offset length), pages)
    | none => none
  else some (data, pages)

/-- The `memcpy` calls the `DO MEMCPY` statement makes: one for a read or a write, none
for any other direction. -/
def dram_memcpy_log (dir page offset addr length avail : Nat) : List copy_record :=
  if dir = OCF_READ ∨ dir = OCF_WRITE then
    [{ dir := dir, addr := addr, page := page, offset := offset, length := length,
       avail := avail }]
  else []

/-- The loop condition `cas_io_iter_is_next(iter) && bytes`. -/
def dram_copy_cond (s : copy_state) : Bool :=
  cas_io_iter_is_next s.iter && s.bytes != 0

/-- The inner loop of `dram_dev_submit_io` (`Copy pages`). -/
def dram_copy_pages (dir : Nat) : Nat → copy_state → Option copy_state
  | 0, _ => none
  | fuel + 1, s =>
    if dram_copy_cond s then
      let page := cas_io_iter_current_page s.iter
      let offset := cas_io_iter_current_offset s.iter
      let avail := cas_io_iter_current_length s.iter
      let length := if avail > s.bytes then s.bytes else avail
      match dram_memcpy dir s.data s.pages page offset s.addr length with
      | none => none
      | some (data, pages) =>
        let bytes := (s.bytes + 2 ^ 32 - length) % 2 ^ 32
        let addr := (s.addr + length) % 2 ^ 64
        let mv := cas_io_iter_move s.iter length
        let copies := s.copies ++ dram_memcpy_log dir page offset s.addr length avail
        if length != mv.2 then
          some { iter := mv.1, bytes := bytes, addr := addr, error := -ENOBUFS,
                 data := data, pages := pages, copies := copies }
        else
          dram_copy_pages dir fuel
            { iter := mv.1, bytes := bytes, addr := addr, error := s.error,
              data := data, pages := pages, copies := copies }
    else some s

/-- The outer loop of `dram_dev_submit_io`. -/
def dram_copy_loop (dir : Nat) : Nat → copy_state → Option copy_state
  | 0, _ => none
  | fuel + 1, s =>
    if dram_copy_cond s then
      match dram_copy_pages dir fuel s with
      | none => none
      | some s1 => if s1.error != 0 then some s1 else dram_copy_loop dir fuel s1
    else some s

/-- The locals of `dram_dev_submit_io` on entry to the copy loop. -/
def dram_copy_init (io : ocf_io) (st : dram_state) : copy_state :=
  { iter := st.dio.iter, bytes := io.bytes, addr := io.addr, error := 0,
    data := st.dobj.data, pages := st.pages, copies := [] }

/-- The test for a pure flush at the head of `dram_dev_submit_io`. -/
def dram_is_flush (fl : cas_flag_tests) (io : ocf_io) : Bool :=
  !fl.CAS_IS_WRITE_FLUSH_FUA io.flags && fl.CAS_IS_WRITE_FLUSH io.flags

/-- The state a copy loop that ended in `s` leaves behind, before `io->end`. -/
def dram_copy_commit (st : dram_state) (s : copy_state) : dram_state :=
  { dobj := { st.dobj with data := s.data },
    dio := { st.dio with iter := s.iter },
    pages := s.pages,
    ended := st.ended }

/-- `dram_dev_submit_io`. -/
def dram_dev_submit_io (fl : cas_flag_tests) (fuel : Nat) (io : ocf_io) (st : dram_state) :
    Option dram_state :=
  if dram_is_flush fl io then some (dram_dev_submit_flush st)
  else
    match dram_copy_loop io.dir fuel (dram_copy_init io st) with
    | none => none
    | some s => some (ocf_io_end (dram_copy_commit st s) s.error)

/-- The `memcpy` calls `dram_dev_submit_io` makes, in order. -/
def dram_dev_submit_io_copies (fl : cas_flag_tests) (fuel : Nat) (io : ocf_io)
    (st : dram_state) : Option (List copy_record) :=
  if dram_is_flush fl io then some []
  else (dram_copy_loop io.dir fuel (dram_copy_init io st)).map (fun s => s.copies)

/-! ## Quantities of the copy loop and sample inputs -/

/-- The clamped length of one iteration: `length = min(current length, bytes)`. -/
def copy_len (s : copy_state) : Nat :=
  if cas_io_iter_current_length s.iter > s.bytes then s.bytes
  else cas_io_iter_current_length s.iter

/-- The locals and memories after one iteration of the inner loop that does not break. -/
def copy_step (dir : Nat) (s : copy_state) : Option copy_state :=
  match dram_memcpy dir s.data s.pages (cas_io_iter_current_page s.iter)
      (cas_io_iter_current_offset s.iter) s.addr (copy_len s) with
  | none => none
  | some (data, pages) =>
    some { iter := (cas_io_iter_move s.iter (copy_len s)).1,
           bytes := (s.bytes + 2 ^ 32 - copy_len s) % 2 ^ 32,
           addr := (s.addr + copy_len s) % 2 ^ 64,
           error := s.error,
           data := data,
           pages := pages,
           copies := s.copies ++ dram_memcpy_log dir (cas_io_iter_current_page s.iter)
             (cas_io_iter_current_offset s.iter) s.addr (copy_len s)
             (cas_io_iter_current_length s.iter) }

/-- The bytes the loop transfers: `min(bytes, bytes left in the buffer)`. -/
def copy_total (s : copy_state) : Nat := min s.bytes s.iter.bytes_left

/-- Every segment from the cursor on still has a byte: the current one past the cursor,
the later ones at all. -/
def iter_segs_nonempty : List bio_vec → Nat → Bool
  | [], _ => true
  | s :: rest, off => decide (off < s.bv_len) && iter_segs_nonempty rest 0

/-- Every remaining segment of the iterator has a byte left. -/
def bio_vec_iter.segs_nonempty (iter : bio_vec_iter) : Bool :=
  iter_segs_nonempty iter.vec iter.offset

/-- Flag tests for the examples: bit 0 of the flags is the flush bit, bit 1 the
force-unit-access bit. -/
def sample_flag_tests : cas_flag_tests :=
  { CAS_IS_WRITE_FLUSH := fun flags => flags % 2 == 1,
    CAS_IS_WRITE_FLUSH_FUA := fun flags => flags % 4 == 3 }

/-- An open volume of one capacity unit (`1 << 30` bytes), all bytes zero. -/
def sample_volume : dram_object := { data := some (fun _ => 0), capacity := 1 }

/-- Buffer memory for the examples: no byte is zero. -/
def sample_pages : Nat → Nat → Nat := fun p o => (7 * p + o) % 251 + 1

/-- A request state on `sample_volume` whose buffer `vec` was bound at `offset`. -/
def sample_state (vec : List bio_vec) (offset : Nat) : dram_state :=
  { dobj := sample_volume,
    dio := (dram_io_set_data { data := none, iter := { vec := [], idx := 0, offset := 0 } }
      (some { vec := vec }) offset).1,
    pages := sample_pages,
    ended := [] }

/-- Total length of a buffer description. -/
def blk_data.total (d : blk_data) : Nat := (d.vec.map (fun s => s.bv_len)).sum

/-- The locals and memories after exactly `n` iterations of the inner loop started in
`s`: `none` when the loop condition fails before the `n`-th iteration (or a null store is
dereferenced).  `dram_copy_iterate dir n s` for the `n` with a result are the states at
the start and at the end of the iterations. -/
def dram_copy_iterate (dir : Nat) : Nat → copy_state → Option copy_state
  | 0, s => some s
  | n + 1, s =>
    if dram_copy_cond s then (copy_step dir s).bind (dram_copy_iterate dir n) else none

/-! ## The iterator: what `cas_io_iter_move` returns and where it leaves the cursor -/

theorem iter_move_moved (vec : List bio_vec) (idx off n : Nat) :
    (iter_move vec idx off n).2 = min n (iter_bytes_left vec off) := by
  induction vec generalizing idx off n with
  | nil => simp [iter_move, iter_bytes_left]
  | cons s rest ih =>
    unfold iter_move
    by_cases h0 : n = 0
    · simp [h0]
    · by_cases h1 : n < s.bv_len - off
      · simp only [h0, h1, if_true, if_false, iter_bytes_left]
        omega
      · simp only [h0, h1, if_false, iter_bytes_left, ih]
        omega

theorem iter_move_bytes_left (vec : List bio_vec) (idx off n : Nat) :
    (iter_move vec idx off n).1.bytes_left = iter_bytes_left vec off - n := by
  induction vec generalizing idx off n with
  | nil => simp [iter_move, iter_bytes_left, bio_vec_iter.bytes_left]
  | cons s rest ih =>
    unfold iter_move
    by_cases h0 : n = 0
    · simp [h0, bio_vec_iter.bytes_left]
    · by_cases h1 : n < s.bv_len - off
      · simp only [h0, h1, if_true, if_false, iter_bytes_left, bio_vec_iter.bytes_left]
        omega
      · simp only [h0, h1, if_false, iter_bytes_left, ih]
        omega

theorem iter_move_byte_at (vec : List bio_vec) (idx off n i : Nat) :
    (iter_move vec idx off n).1.byte_at i
      = iter_byte_at vec idx off (min n (iter_bytes_left vec off) + i) := by
  induction vec generalizing idx off n with
  | nil => simp [iter_move, iter_byte_at, bio_vec_iter.byte_at]
  | cons s rest ih =>
    unfold iter_move
    by_cases h0 : n = 0
    · simp [h0, bio_vec_iter.byte_at]
    · by_cases h1 : n < s.bv_len - off
      · have hm : min n (iter_bytes_left (s :: rest) off) = n := by
          simp only [iter_bytes_left]; omega
        simp only [h0, h1, if_true, if_false, bio_vec_iter.byte_at, hm]
        simp only [iter_byte_at]
        by_cases h2 : i < s.bv_len - (off + n)
        · have h3 : n + i < s.bv_len - off := by omega
          simp only [h2, h3, if_true]
          congr 2; omega
        · have h3 : ¬ n + i < s.bv_len - off := by omega
          simp only [h2, h3, if_false]
          congr 1; omega
      · simp only [h0, h1, if_false, ih]
        have h3 : ¬ min n (iter_bytes_left (s :: rest) off) + i < s.bv_len - off := by
          simp only [iter_bytes_left]; omega
        conv_rhs => unfold iter_byte_at
        simp only [h3, if_false]
        congr 1
        simp only [iter_bytes_left]; omega

theorem iter_move_add (vec : List bio_vec) (idx off a b : Nat) :
    (cas_io_iter_move (iter_move vec idx off a).1 b).1 = (iter_move vec idx off (a + b)).1 := by
  induction vec generalizing idx off a b with
  | nil => simp [iter_move, cas_io_iter_move]
  | cons s rest ih =>
    by_cases h0 : a = 0
    · subst h0
      simp [iter_move, cas_io_iter_move]
    · by_cases h1 : a < s.bv_len - off
      · have e1 : iter_move (s :: rest) idx off a
            = ({ vec := s :: rest, idx := idx, offset := off + a }, a) := by
          simp [iter_move, h0, h1]
        rw [e1]
        simp only [cas_io_iter_move]
        by_cases hb : b = 0
        · subst hb
          simp [iter_move, h0, h1]
        · have hab : a + b ≠ 0 := by omega
          by_cases h2 : b < s.bv_len - (off + a)
          · have h3 : a + b < s.bv_len - off := by omega
            simp [iter_move, hb, hab, h2, h3, Nat.add_assoc]
          · have h3 : ¬ a + b < s.bv_len - off := by omega
            simp only [iter_move, hb, hab, h2, h3, if_false]
            congr 2; omega
      · have hab : a + b ≠ 0 := by omega
        have h3 : ¬ a + b < s.bv_len - off := by omega
        have e1 : (iter_move (s :: rest) idx off a).1
            = (iter_move rest (idx + 1) 0 (a - (s.bv_len - off))).1 := by
          simp [iter_move, h0, h1]
        have e2 : (iter_move (s :: rest) idx off (a + b)).1
            = (iter_move rest (idx + 1) 0 (a + b - (s.bv_len - off))).1 := by
          simp [iter_move, hab, h3]
        rw [e1, e2, ih]
        congr 2; omega

theorem iter_byte_at_region (vec : List bio_vec) (idx off i p o : Nat)
    (h : iter_byte_at vec idx off i = some (p, o)) : idx ≤ p := by
  induction vec generalizing idx off i with
  | nil => simp [iter_byte_at] at h
  | cons s rest ih =>
    unfold iter_byte_at at h
    by_cases h1 : i < s.bv_len - off
    · simp only [h1, if_true, Option.some.injEq, Prod.mk.injEq] at h
      omega
    · simp only [h1, if_false] at h
      have := ih _ _ _ h
      omega

theorem iter_byte_at_inj (vec : List bio_vec) (idx off i j : Nat) (x : Nat × Nat)
    (hi : iter_byte_at vec idx off i = some x) (hj : iter_byte_at vec idx off j = some x) :
    i = j := by
  induction vec generalizing idx off i j with
  | nil => simp [iter_byte_at] at hi
  | cons s rest ih =>
    obtain ⟨p, o⟩ := x
    unfold iter_byte_at at hi hj
    by_cases h1 : i < s.bv_len - off <;> by_cases h2 : j < s.bv_len - off
    · simp only [h1, h2, if_true, Option.some.injEq, Prod.mk.injEq] at hi hj
      omega
    · simp only [h1, h2, if_true, if_false, Option.some.injEq, Prod.mk.injEq] at hi hj
      have := iter_byte_at_region _ _ _ _ _ _ hj
      omega
    · simp only [h1, h2, if_true, if_false, Option.some.injEq, Prod.mk.injEq] at hi hj
      have := iter_byte_at_region _ _ _ _ _ _ hi
      omega
    · simp only [h1, h2, if_false] at hi hj
      have := ih _ _ _ _ hi hj
      omega

theorem iter_byte_at_isSome (vec : List bio_vec) (idx off i : Nat) :
    (iter_byte_at vec idx off i).isSome = decide (i < iter_bytes_left vec off) := by
  induction vec generalizing idx off i with
  | nil => simp [iter_byte_at, iter_bytes_left]
  | cons s rest ih =>
    unfold iter_byte_at
    by_cases h1 : i < s.bv_len - off
    · have : i < iter_bytes_left (s :: rest) off := by simp only [iter_bytes_left]; omega
      simp [h1, this]
    · simp only [h1, if_false, ih, iter_bytes_left]
      congr 1
      apply propext
      omega

theorem current_length_le_bytes_left (iter : bio_vec_iter) :
    cas_io_iter_current_length iter ≤ iter.bytes_left := by
  obtain ⟨vec, idx, off⟩ := iter
  cases vec with
  | nil => simp [cas_io_iter_current_length]
  | cons s rest => simp [cas_io_iter_current_length, bio_vec_iter.bytes_left, iter_bytes_left]

theorem cas_io_iter_move_moved (iter : bio_vec_iter) (n : Nat) :
    (cas_io_iter_move iter n).2 = min n iter.bytes_left := by
  simp [cas_io_iter_move, iter_move_moved, bio_vec_iter.bytes_left]

theorem cas_io_iter_move_bytes_left (iter : bio_vec_iter) (n : Nat) :
    (cas_io_iter_move iter n).1.bytes_left = iter.bytes_left - n := by
  unfold cas_io_iter_move
  rw [iter_move_bytes_left]
  rfl

theorem cas_io_iter_move_byte_at (iter : bio_vec_iter) (n i : Nat) :
    (cas_io_iter_move iter n).1.byte_at i = iter.byte_at (min n iter.bytes_left + i) := by
  unfold cas_io_iter_move
  rw [iter_move_byte_at]
  rfl

theorem cas_io_iter_move_add (iter : bio_vec_iter) (a b : Nat) :
    (cas_io_iter_move (cas_io_iter_move iter a).1 b).1 = (cas_io_iter_move iter (a + b)).1 := by
  have h := iter_move_add iter.vec iter.idx iter.offset a b
  exact h

/-- Inside the current segment the `k`-th remaining byte is byte `offset + k` of the
current region. -/
theorem byte_at_current (iter : bio_vec_iter) (k : Nat)
    (hk : k < cas_io_iter_current_length iter) :
    iter.byte_at k
      = some (cas_io_iter_current_page iter, cas_io_iter_current_offset iter + k) := by
  obtain ⟨vec, idx, off⟩ := iter
  cases vec with
  | nil => simp [cas_io_iter_current_length] at hk
  | cons s rest =>
    simp only [cas_io_iter_current_length] at hk
    simp [bio_vec_iter.byte_at, iter_byte_at, hk, cas_io_iter_current_page,
      cas_io_iter_current_offset]

/-- A remaining byte that lies in the current region at or after the current offset and
before the end of the current sub-range is a byte of the current segment. -/
theorem byte_at_current_inv (iter : bio_vec_iter) (i o : Nat)
    (h : iter.byte_at i = some (cas_io_iter_current_page iter, o)) :
    i < cas_io_iter_current_length iter ∧ o = cas_io_iter_current_offset iter + i := by
  obtain ⟨vec, idx, off⟩ := iter
  cases vec with
  | nil => simp [bio_vec_iter.byte_at, iter_byte_at] at h
  | cons s rest =>
    simp only [bio_vec_iter.byte_at, iter_byte_at, cas_io_iter_current_page] at h
    by_cases h1 : i < s.bv_len - off
    · simp only [h1, if_true, Option.some.injEq, Prod.mk.injEq, true_and] at h
      simp [cas_io_iter_current_length, cas_io_iter_current_offset, h1, h]
    · simp only [h1, if_false] at h
      have := iter_byte_at_region _ _ _ _ _ _ h
      omega

/-! ## The copy loop, one iteration at a time -/

theorem copy_len_le_bytes (s : copy_state) : copy_len s ≤ s.bytes := by
  unfold copy_len; split <;> omega

theorem copy_len_le_current (s : copy_state) :
    copy_len s ≤ cas_io_iter_current_length s.iter := by
  unfold copy_len; split <;> omega

theorem copy_len_le_left (s : copy_state) : copy_len s ≤ s.iter.bytes_left :=
  le_trans (copy_len_le_current s) (current_length_le_bytes_left s.iter)

theorem copy_len_eq_min (s : copy_state) :
    copy_len s = min (cas_io_iter_current_length s.iter) s.bytes := by
  unfold copy_len; split <;> omega

/-- The iterator always advances by the clamped length: the check
`length != cas_io_iter_move(iter, length)` never fires. -/
theorem copy_len_moved (s : copy_state) :
    (cas_io_iter_move s.iter (copy_len s)).2 = copy_len s := by
  rw [cas_io_iter_move_moved]
  exact min_eq_left (copy_len_le_left s)

theorem dram_copy_pages_succ (dir fuel : Nat) (s : copy_state) :
    dram_copy_pages dir (fuel + 1) s
      = if dram_copy_cond s then (copy_step dir s).bind (dram_copy_pages dir fuel)
        else some s := by
  by_cases hc : dram_copy_cond s = true
  · have hm := copy_len_moved s
    simp only [copy_len] at hm
    simp only [dram_copy_pages, hc, if_true, copy_step, copy_len]
    cases hd : dram_memcpy dir s.data s.pages (cas_io_iter_current_page s.iter)
        (cas_io_iter_current_offset s.iter) s.addr
        (if cas_io_iter_current_length s.iter > s.bytes then s.bytes
          else cas_io_iter_current_length s.iter) with
    | none => simp
    | some r =>
      obtain ⟨data, pages⟩ := r
      simp [hm]
  · simp [dram_copy_pages, hc]

theorem dram_copy_cond_iff (s : copy_state) :
    dram_copy_cond s = true ↔ 0 < s.iter.bytes_left ∧ s.bytes ≠ 0 := by
  simp [dram_copy_cond, cas_io_iter_is_next]

theorem dram_copy_cond_false_iff (s : copy_state) :
    dram_copy_cond s = false ↔ s.iter.bytes_left = 0 ∨ s.bytes = 0 := by
  have h := dram_copy_cond_iff s
  cases hc : dram_copy_cond s
  · simp only [hc, false_iff, Bool.false_eq_true] at h
    simp only [true_iff]
    omega
  · simp only [hc, true_iff] at h
    simp only [Bool.true_eq_false, false_iff]
    omega

/-- Induction over the iterations of the inner loop. -/
theorem dram_copy_pages_ind (dir : Nat) (P : copy_state → copy_state → Prop)
    (h0 : ∀ s, dram_copy_cond s = false → P s s)
    (h1 : ∀ s s1 s', dram_copy_cond s = true → copy_step dir s = some s1 → P s1 s' → P s s') :
    ∀ fuel s s', dram_copy_pages dir fuel s = some s' → P s s' := by
  intro fuel
  induction fuel with
  | zero => intro s s' h; simp [dram_copy_pages] at h
  | succ fuel ih =>
    intro s s' h
    rw [dram_copy_pages_succ] at h
    by_cases hc : dram_copy_cond s = true
    · simp only [hc, if_true] at h
      cases hs : copy_step dir s with
      | none => simp [hs] at h
      | some s1 =>
        simp only [hs, Option.some_bind] at h
        exact h1 s s1 s' hc hs (ih s1 s' h)
    · simp only [hc] at h
      simp only [Bool.false_eq_true, if_false, Option.some.injEq] at h
      subst h
      exact h0 s (by simpa using hc)

theorem copy_step_fields (dir : Nat) (s s1 : copy_state) (h : copy_step dir s = some s1) :
    s1.iter = (cas_io_iter_move s.iter (copy_len s)).1
    ∧ s1.bytes = (s.bytes + 2 ^ 32 - copy_len s) % 2 ^ 32
    ∧ s1.addr = (s.addr + copy_len s) % 2 ^ 64
    ∧ s1.error = s.error
    ∧ s1.copies = s.copies ++ dram_memcpy_log dir (cas_io_iter_current_page s.iter)
        (cas_io_iter_current_offset s.iter) s.addr (copy_len s)
        (cas_io_iter_current_length s.iter)
    ∧ dram_memcpy dir s.data s.pages (cas_io_iter_current_page s.iter)
        (cas_io_iter_current_offset s.iter) s.addr (copy_len s) = some (s1.data, s1.pages) := by
  unfold copy_step at h
  cases hd : dram_memcpy dir s.data s.pages (cas_io_iter_current_page s.iter)
      (cas_io_iter_current_offset s.iter) s.addr (copy_len s) with
  | none => simp [hd] at h
  | some r =>
    obtain ⟨data, pages⟩ := r
    simp only [hd, Option.some.injEq] at h
    subst h
    simp

theorem copy_step_bytes (dir : Nat) (s s1 : copy_state) (h : copy_step dir s = some s1)
    (hb : s.bytes < 2 ^ 32) : s1.bytes = s.bytes - copy_len s ∧ s1.bytes < 2 ^ 32 := by
  obtain ⟨-, h2, -⟩ := copy_step_fields dir s s1 h
  have := copy_len_le_bytes s
  norm_num at hb h2 ⊢
  omega

theorem copy_step_bytes_left (dir : Nat) (s s1 : copy_state) (h : copy_step dir s = some s1) :
    s1.iter.bytes_left = s.iter.bytes_left - copy_len s := by
  obtain ⟨h1, -⟩ := copy_step_fields dir s s1 h
  rw [h1, cas_io_iter_move_bytes_left]

theorem copy_step_byte_at (dir : Nat) (s s1 : copy_state) (h : copy_step dir s = some s1)
    (i : Nat) : s1.iter.byte_at i = s.iter.byte_at (copy_len s + i) := by
  obtain ⟨h1, -⟩ := copy_step_fields dir s s1 h
  rw [h1, cas_io_iter_move_byte_at, min_eq_left (copy_len_le_left s)]

theorem cas_io_iter_move_zero (iter : bio_vec_iter) : cas_io_iter_move iter 0 = (iter, 0) := by
  obtain ⟨vec, idx, off⟩ := iter
  cases vec <;> simp [cas_io_iter_move, iter_move]

theorem copy_total_of_cond_false (s : copy_state) (h : dram_copy_cond s = false) :
    copy_total s = 0 := by
  rw [dram_copy_cond_false_iff] at h
  unfold copy_total
  omega

theorem copy_total_step (dir : Nat) (s s1 : copy_state) (h : copy_step dir s = some s1)
    (hb : s.bytes < 2 ^ 32) :
    copy_total s1 = copy_total s - copy_len s ∧ copy_len s ≤ copy_total s := by
  have h1 := (copy_step_bytes dir s s1 h hb).1
  have h2 := copy_step_bytes_left dir s s1 h
  have h3 := copy_len_le_bytes s
  have h4 := copy_len_le_left s
  unfold copy_total
  omega

/-- What the inner loop leaves in the locals: the error is untouched, `bytes` has gone
down and `addr` up by the bytes transferred, the iterator has moved by as much, and the
loop condition is false. -/
theorem dram_copy_pages_locals (dir fuel : Nat) (s s' : copy_state)
    (h : dram_copy_pages dir fuel s = some s') (hb : s.bytes < 2 ^ 32)
    (ha : s.addr < 2 ^ 64) :
    s'.error = s.error
    ∧ s'.bytes = s.bytes - copy_total s
    ∧ s'.addr = (s.addr + copy_total s) % 2 ^ 64
    ∧ s'.iter = (cas_io_iter_move s.iter (copy_total s)).1
    ∧ dram_copy_cond s' = false := by
  refine dram_copy_pages_ind dir
    (fun s s' => s.bytes < 2 ^ 32 → s.addr < 2 ^ 64 →
      s'.error = s.error ∧ s'.bytes = s.bytes - copy_total s
      ∧ s'.addr = (s.addr + copy_total s) % 2 ^ 64
      ∧ s'.iter = (cas_io_iter_move s.iter (copy_total s)).1
      ∧ dram_copy_cond s' = false) ?_ ?_ fuel s s' h hb ha
  · intro s hc hb ha
    rw [copy_total_of_cond_false s hc, cas_io_iter_move_zero]
    refine ⟨rfl, rfl, ?_, rfl, hc⟩
    rw [Nat.add_zero, Nat.mod_eq_of_lt ha]
  · intro s s1 s' hc hs ih hb ha
    obtain ⟨f1, -, f3, f4, -, -⟩ := copy_step_fields dir s s1 hs
    obtain ⟨b1, b2⟩ := copy_step_bytes dir s s1 hs hb
    obtain ⟨t1, t2⟩ := copy_total_step dir s s1 hs hb
    have ha1 : s1.addr < 2 ^ 64 := by rw [f3]; exact Nat.mod_lt _ (by norm_num)
    obtain ⟨e1, e2, e3, e4, e5⟩ := ih b2 ha1
    refine ⟨by rw [e1, f4], ?_, ?_, ?_, e5⟩
    · rw [e2, b1, t1]
      have := copy_len_le_bytes s
      omega
    · rw [e3, f3, t1, Nat.mod_add_mod]
      congr 1
      omega
    · rw [e4, f1, cas_io_iter_move_add, t1]
      congr 2
      omega

/-! ## The copy loop: what a write leaves in the store -/

theorem dram_memcpy_write (store : Nat → Nat) (pages : Nat → Nat → Nat)
    (page offset addr length : Nat) :
    dram_memcpy OCF_WRITE (some store) pages page offset addr length
      = some (some (memcpy store addr (pages page) offset length), pages) := by
  simp [dram_memcpy, OCF_WRITE, OCF_READ]

theorem dram_memcpy_read (store : Nat → Nat) (pages : Nat → Nat → Nat)
    (page offset addr length : Nat) :
    dram_memcpy OCF_READ (some store) pages page offset addr length
      = some (some store,
          fun p => if p = page then memcpy (pages p) offset store addr length
                   else pages p) := by
  simp [dram_memcpy]

theorem copy_step_byte (dir : Nat) (s s1 : copy_state) (h : copy_step dir s = some s1)
    (pages : Nat → Nat → Nat) (i : Nat) :
    s1.iter.byte pages i = s.iter.byte pages (copy_len s + i) := by
  unfold bio_vec_iter.byte
  rw [copy_step_byte_at dir s s1 h]

theorem byte_current (iter : bio_vec_iter) (pages : Nat → Nat → Nat) (k : Nat)
    (hk : k < cas_io_iter_current_length iter) :
    iter.byte pages k
      = pages (cas_io_iter_current_page iter) (cas_io_iter_current_offset iter + k) := by
  unfold bio_vec_iter.byte
  rw [byte_at_current iter k hk]

/-- The address after one iteration, when the transfer does not run past `2^64`. -/
theorem copy_step_addr (dir : Nat) (s s1 : copy_state) (h : copy_step dir s = some s1)
    (hb : s.bytes < 2 ^ 32) (ha : s.addr + copy_total s ≤ 2 ^ 64) :
    s1.addr + copy_total s1 ≤ 2 ^ 64
    ∧ (copy_total s1 = 0 ∨ s1.addr = s.addr + copy_len s) := by
  obtain ⟨-, -, f3, -⟩ := copy_step_fields dir s s1 h
  obtain ⟨t1, t2⟩ := copy_total_step dir s s1 h hb
  norm_num at ha f3 ⊢
  omega

theorem dram_copy_pages_write (fuel : Nat) (s s' : copy_state)
    (h : dram_copy_pages OCF_WRITE fuel s = some s') (store : Nat → Nat)
    (hd : s.data = some store) (hb : s.bytes < 2 ^ 32)
    (ha : s.addr + copy_total s ≤ 2 ^ 64) :
    s'.pages = s.pages ∧ ∃ store', s'.data = some store' ∧ ∀ a, store' a =
      if s.addr ≤ a ∧ a < s.addr + copy_total s then s.iter.byte s.pages (a - s.addr)
      else store a := by
  refine dram_copy_pages_ind OCF_WRITE
    (fun s s' => ∀ store, s.data = some store → s.bytes < 2 ^ 32 →
      s.addr + copy_total s ≤ 2 ^ 64 →
      s'.pages = s.pages ∧ ∃ store', s'.data = some store' ∧ ∀ a, store' a =
        if s.addr ≤ a ∧ a < s.addr + copy_total s then s.iter.byte s.pages (a - s.addr)
        else store a) ?_ ?_ fuel s s' h store hd hb ha
  · intro s hc store hd hb ha
    refine ⟨rfl, store, hd, fun a => ?_⟩
    rw [copy_total_of_cond_false s hc]
    have : ¬ (s.addr ≤ a ∧ a < s.addr + 0) := by omega
    rw [if_neg this]
  · intro s s1 s' hc hs ih store hd hb ha
    obtain ⟨-, -, -, -, -, f6⟩ := copy_step_fields OCF_WRITE s s1 hs
    rw [hd, dram_memcpy_write] at f6
    simp only [Option.some.injEq, Prod.mk.injEq] at f6
    obtain ⟨fd, fp⟩ := f6
    obtain ⟨b1, b2⟩ := copy_step_bytes OCF_WRITE s s1 hs hb
    obtain ⟨t1, t2⟩ := copy_total_step OCF_WRITE s s1 hs hb
    obtain ⟨a1, a2⟩ := copy_step_addr OCF_WRITE s s1 hs hb ha
    obtain ⟨p1, store', d1, m1⟩ := ih _ fd.symm b2 a1
    refine ⟨by rw [p1, ← fp], store', d1, fun a => ?_⟩
    rw [m1 a]
    have hcur := copy_len_le_current s
    have hin : ∀ a, s.addr ≤ a → a < s.addr + copy_len s →
        s.pages (cas_io_iter_current_page s.iter)
          (cas_io_iter_current_offset s.iter + (a - s.addr))
        = s.iter.byte s.pages (a - s.addr) := by
      intro a h1 h2
      rw [byte_current]
      omega
    by_cases hin1 : s1.addr ≤ a ∧ a < s1.addr + copy_total s1
    · have ht : copy_total s1 ≠ 0 := by omega
      have ha2 : s1.addr = s.addr + copy_len s := by
        cases a2 with
        | inl h0 => exact absurd h0 ht
        | inr h0 => exact h0
      have hin2 : s.addr ≤ a ∧ a < s.addr + copy_total s := by omega
      rw [if_pos hin1, if_pos hin2, copy_step_byte OCF_WRITE s s1 hs, ← fp]
      congr 1
      omega
    · rw [if_neg hin1]
      simp only [memcpy]
      by_cases hin3 : s.addr ≤ a ∧ a < s.addr + copy_len s
      · have hin2 : s.addr ≤ a ∧ a < s.addr + copy_total s := by omega
        rw [if_pos hin3, if_pos hin2]
        exact hin a hin3.1 hin3.2
      · have hin2 : ¬ (s.addr ≤ a ∧ a < s.addr + copy_total s) := by
          cases a2 with
          | inl h0 => omega
          | inr h0 => omega
        rw [if_neg hin3, if_neg hin2]

/-! ## The copy loop: what a read leaves in the buffer -/

theorem byte_at_inj (iter : bio_vec_iter) (i j : Nat) (x : Nat × Nat)
    (hi : iter.byte_at i = some x) (hj : iter.byte_at j = some x) : i = j :=
  iter_byte_at_inj iter.vec iter.idx iter.offset i j x hi hj

theorem dram_copy_pages_read (fuel : Nat) (s s' : copy_state)
    (h : dram_copy_pages OCF_READ fuel s = some s') (store : Nat → Nat)
    (hd : s.data = some store) (hb : s.bytes < 2 ^ 32)
    (ha : s.addr + copy_total s ≤ 2 ^ 64) :
    s'.data = some store
    ∧ (∀ i, i < copy_total s → s.iter.byte s'.pages i = store (s.addr + i))
    ∧ (∀ p o, (∀ i, i < copy_total s → s.iter.byte_at i ≠ some (p, o)) →
        s'.pages p o = s.pages p o) := by
  refine dram_copy_pages_ind OCF_READ
    (fun s s' => s.data = some store → s.bytes < 2 ^ 32 →
      s.addr + copy_total s ≤ 2 ^ 64 →
      s'.data = some store
      ∧ (∀ i, i < copy_total s → s.iter.byte s'.pages i = store (s.addr + i))
      ∧ (∀ p o, (∀ i, i < copy_total s → s.iter.byte_at i ≠ some (p, o)) →
          s'.pages p o = s.pages p o)) ?_ ?_ fuel s s' h hd hb ha
  · intro s hc hd hb ha
    rw [copy_total_of_cond_false s hc]
    exact ⟨hd, fun i hi => absurd hi (Nat.not_lt_zero i), fun p o _ => rfl⟩
  · intro s s1 s' hc hs ih hd hb ha
    obtain ⟨-, -, -, -, -, f6⟩ := copy_step_fields OCF_READ s s1 hs
    rw [hd, dram_memcpy_read] at f6
    simp only [Option.some.injEq, Prod.mk.injEq] at f6
    obtain ⟨fd, fp⟩ := f6
    obtain ⟨b1, b2⟩ := copy_step_bytes OCF_READ s s1 hs hb
    obtain ⟨t1, t2⟩ := copy_total_step OCF_READ s s1 hs hb
    obtain ⟨a1, a2⟩ := copy_step_addr OCF_READ s s1 hs hb ha
    obtain ⟨d1, r1, fr1⟩ := ih fd.symm b2 a1
    have hcur := copy_len_le_current s
    refine ⟨d1, ?_, ?_⟩
    · intro i hi
      by_cases hil : i < copy_len s
      · have hat := byte_at_current s.iter i (by omega)
        have hfr : s'.pages (cas_io_iter_current_page s.iter)
              (cas_io_iter_current_offset s.iter + i)
            = s1.pages (cas_io_iter_current_page s.iter)
              (cas_io_iter_current_offset s.iter + i) := by
          apply fr1
          intro j hj hEq
          rw [copy_step_byte_at OCF_READ s s1 hs] at hEq
          have := byte_at_inj s.iter _ _ _ hEq hat
          omega
        unfold bio_vec_iter.byte
        rw [hat]
        simp only []
        rw [hfr, ← fp]
        have hr : cas_io_iter_current_offset s.iter ≤ cas_io_iter_current_offset s.iter + i
            ∧ cas_io_iter_current_offset s.iter + i
              < cas_io_iter_current_offset s.iter + copy_len s := by omega
        simp only [memcpy, if_true, if_pos hr]
        congr 1
        omega
      · have ht : copy_total s1 ≠ 0 := by omega
        have ha2 : s1.addr = s.addr + copy_len s := by
          cases a2 with
          | inl h0 => exact absurd h0 ht
          | inr h0 => exact h0
        have := r1 (i - copy_len s) (by omega)
        rw [copy_step_byte OCF_READ s s1 hs, ha2] at this
        have e1 : copy_len s + (i - copy_len s) = i := by omega
        have e2 : s.addr + copy_len s + (i - copy_len s) = s.addr + i := by omega
        rw [e1, e2] at this
        exact this
    · intro p o hpo
      have h1 : s'.pages p o = s1.pages p o := by
        apply fr1
        intro j hj
        rw [copy_step_byte_at OCF_READ s s1 hs]
        exact hpo _ (by omega)
      rw [h1, ← fp]
      by_cases hp : p = cas_io_iter_current_page s.iter
      · simp only [hp, if_true, memcpy]
        by_cases hr : cas_io_iter_current_offset s.iter ≤ o
            ∧ o < cas_io_iter_current_offset s.iter + copy_len s
        · exfalso
          have hat := byte_at_current s.iter (o - cas_io_iter_current_offset s.iter)
            (by omega)
          apply hpo (o - cas_io_iter_current_offset s.iter) (by omega)
          rw [hat, hp]
          congr 2
          omega
        · rw [if_neg hr]
      · simp only [hp, if_false]

/-! ## Termination of the copy loop -/

theorem iter_move_lt (s : bio_vec) (rest : List bio_vec) (idx off n : Nat)
    (h : n < s.bv_len - off) :
    iter_move (s :: rest) idx off n
      = ({ vec := s :: rest, idx := idx, offset := off + n }, n) := by
  by_cases h0 : n = 0
  · simp [iter_move, h0]
  · simp [iter_move, h0, h]

theorem iter_move_eq (s : bio_vec) (rest : List bio_vec) (idx off : Nat)
    (h : 0 < s.bv_len - off) :
    (iter_move (s :: rest) idx off (s.bv_len - off)).1
      = { vec := rest, idx := idx + 1, offset := 0 } := by
  have h0 : s.bv_len - off ≠ 0 := by omega
  cases rest <;> simp [iter_move, h0]

theorem dram_memcpy_some (dir : Nat) (store : Nat → Nat) (pages : Nat → Nat → Nat)
    (page offset addr length : Nat) :
    ∃ store' pages', dram_memcpy dir (some store) pages page offset addr length
      = some (some store', pages') := by
  by_cases h1 : dir = OCF_READ
  · subst h1
    exact ⟨_, _, dram_memcpy_read _ _ _ _ _ _⟩
  · by_cases h2 : dir = OCF_WRITE
    · subst h2
      exact ⟨_, _, dram_memcpy_write _ _ _ _ _ _⟩
    · exact ⟨store, pages, by simp [dram_memcpy, h1, h2]⟩

theorem copy_step_some (dir : Nat) (s : copy_state) (hd : s.data.isSome = true) :
    ∃ s1, copy_step dir s = some s1 ∧ s1.data.isSome = true := by
  obtain ⟨store, hs⟩ := Option.isSome_iff_exists.mp hd
  obtain ⟨store', pages', hm⟩ := dram_memcpy_some dir store s.pages
    (cas_io_iter_current_page s.iter) (cas_io_iter_current_offset s.iter) s.addr (copy_len s)
  unfold copy_step
  rw [hs, hm]
  exact ⟨_, rfl, rfl⟩

theorem dram_copy_pages_terminates (dir fuel : Nat) (s : copy_state)
    (hne : s.iter.segs_nonempty = true) (hb : s.bytes < 2 ^ 32)
    (hd : s.data.isSome = true)
    (hf : s.iter.vec.length + 1 ≤ fuel ∨ (s.bytes = 0 ∧ 1 ≤ fuel)) :
    ∃ s', dram_copy_pages dir fuel s = some s' := by
  induction fuel generalizing s with
  | zero => omega
  | succ fuel ih =>
    rw [dram_copy_pages_succ]
    by_cases hc : dram_copy_cond s = true
    · obtain ⟨s1, hs, hd1⟩ := copy_step_some dir s hd
      simp only [hc, if_true, hs, Option.some_bind]
      obtain ⟨f1, -⟩ := copy_step_fields dir s s1 hs
      obtain ⟨b1, b2⟩ := copy_step_bytes dir s s1 hs hb
      obtain ⟨c1, c2⟩ := (dram_copy_cond_iff s).mp hc
      rcases hi : s.iter with ⟨vec, idx, off⟩
      cases vec with
      | nil => simp [hi, bio_vec_iter.bytes_left, iter_bytes_left] at c1
      | cons hd rest =>
        simp only [hi, bio_vec_iter.segs_nonempty, iter_segs_nonempty, Bool.and_eq_true,
          decide_eq_true_eq] at hne
        obtain ⟨n1, n2⟩ := hne
        have hcl : cas_io_iter_current_length s.iter = hd.bv_len - off := by
          simp [hi, cas_io_iter_current_length]
        have hlen := copy_len_eq_min s
        rw [hcl] at hlen
        have hvl : s.iter.vec.length = rest.length + 1 := by simp [hi]
        by_cases hlt : s.bytes < hd.bv_len - off
        · have hl : copy_len s = s.bytes := by omega
          have hit : s1.iter = { vec := hd :: rest, idx := idx, offset := off + s.bytes } := by
            rw [f1, hl, hi]
            simp only [cas_io_iter_move]
            rw [iter_move_lt _ _ _ _ _ hlt]
          apply ih s1
          · simp only [hit, bio_vec_iter.segs_nonempty, iter_segs_nonempty,
              Bool.and_eq_true, decide_eq_true_eq]
            exact ⟨by omega, n2⟩
          · exact b2
          · exact hd1
          · right
            omega
        · have hl : copy_len s = hd.bv_len - off := by omega
          have hit : s1.iter = { vec := rest, idx := idx + 1, offset := 0 } := by
            rw [f1, hl, hi]
            simp only [cas_io_iter_move]
            rw [iter_move_eq _ _ _ _ (by omega)]
          apply ih s1
          · simp only [hit, bio_vec_iter.segs_nonempty]
            exact n2
          · exact b2
          · exact hd1
          · left
            simp only [hit]
            omega
    · simp [hc]

/-- A cursor that rests on an exhausted segment while bytes remain to be transferred
stops the loop from ever finishing: the iteration copies nothing and moves nothing. -/
theorem dram_copy_pages_hang (dir fuel : Nat) (s : copy_state)
    (hc : dram_copy_cond s = true) (h0 : cas_io_iter_current_length s.iter = 0)
    (hb : s.bytes < 2 ^ 32) : dram_copy_pages dir fuel s = none := by
  induction fuel generalizing s with
  | zero => rfl
  | succ fuel ih =>
    rw [dram_copy_pages_succ]
    simp only [hc, if_true]
    cases hs : copy_step dir s with
    | none => rfl
    | some s1 =>
      simp only [Option.some_bind]
      have hl : copy_len s = 0 := by
        have := copy_len_le_current s
        omega
      obtain ⟨f1, -⟩ := copy_step_fields dir s s1 hs
      obtain ⟨b1, b2⟩ := copy_step_bytes dir s s1 hs hb
      rw [hl, cas_io_iter_move_zero] at f1
      rw [hl] at b1
      apply ih s1
      · rw [dram_copy_cond_iff] at hc ⊢
        rw [f1, b1]
        exact hc
      · rw [f1]; exact h0
      · exact b2

/-! ## The outer loop runs the inner loop once -/

theorem dram_copy_loop_succ (dir fuel : Nat) (s : copy_state) :
    dram_copy_loop dir (fuel + 1) s
      = if dram_copy_cond s then
          match dram_copy_pages dir fuel s with
          | none => none
          | some s1 => if s1.error != 0 then some s1 else dram_copy_loop dir fuel s1
        else some s := by
  rfl

theorem dram_copy_loop_of_pages (dir fuel : Nat) (s s' : copy_state)
    (h : dram_copy_pages dir fuel s = some s') (he : s.error = 0)
    (hb : s.bytes < 2 ^ 32) (ha : s.addr < 2 ^ 64) (hf : 2 ≤ fuel) :
    dram_copy_loop dir (fuel + 1) s = some s' := by
  obtain ⟨e1, -, -, -, e5⟩ := dram_copy_pages_locals dir fuel s s' h hb ha
  rw [dram_copy_loop_succ]
  by_cases hc : dram_copy_cond s = true
  · simp only [hc, if_true, h, e1, he]
    obtain ⟨k, rfl⟩ : ∃ k, fuel = k + 1 := ⟨fuel - 1, by omega⟩
    rw [dram_copy_loop_succ]
    simp [e5]
  · obtain ⟨k, rfl⟩ : ∃ k, fuel = k + 1 := ⟨fuel - 1, by omega⟩
    rw [dram_copy_pages_succ] at h
    simp only [hc] at h ⊢
    simpa using h

theorem dram_copy_loop_inv (dir fuel : Nat) (s s' : copy_state)
    (h : dram_copy_loop dir fuel s = some s') (he : s.error = 0)
    (hb : s.bytes < 2 ^ 32) (ha : s.addr < 2 ^ 64) :
    ∃ fuel', dram_copy_pages dir fuel' s = some s' := by
  cases fuel with
  | zero => simp [dram_copy_loop] at h
  | succ fuel =>
    rw [dram_copy_loop_succ] at h
    by_cases hc : dram_copy_cond s = true
    · simp only [hc, if_true] at h
      cases hp : dram_copy_pages dir fuel s with
      | none => simp [hp] at h
      | some s1 =>
        obtain ⟨e1, -, -, -, e5⟩ := dram_copy_pages_locals dir fuel s s1 hp hb ha
        simp only [hp, e1, he] at h
        cases fuel with
        | zero => simp [dram_copy_pages] at hp
        | succ k =>
          rw [dram_copy_loop_succ] at h
          simp only [e5] at h
          simp only [bne_self_eq_false, Bool.false_eq_true, if_false, Option.some.injEq] at h
          exact ⟨k + 1, by rw [hp, h]⟩
    · refine ⟨1, ?_⟩
      rw [dram_copy_pages_succ]
      simp only [hc] at h ⊢
      simpa using h

theorem dram_copy_loop_hang (dir fuel : Nat) (s : copy_state)
    (hc : dram_copy_cond s = true) (h0 : cas_io_iter_current_length s.iter = 0)
    (hb : s.bytes < 2 ^ 32) : dram_copy_loop dir fuel s = none := by
  cases fuel with
  | zero => rfl
  | succ fuel =>
    rw [dram_copy_loop_succ, dram_copy_pages_hang dir fuel s hc h0 hb]
    simp [hc]

/-! ## The `memcpy` calls of the copy loop -/

theorem mem_dram_memcpy_log (dir page offset addr length avail : Nat) (c : copy_record)
    (h : c ∈ dram_memcpy_log dir page offset addr length avail) :
    c.addr = addr ∧ c.page = page ∧ c.offset = offset ∧ c.length = length
    ∧ c.avail = avail := by
  unfold dram_memcpy_log at h
  split at h
  · simp only [List.mem_singleton] at h
    subst h
    simp
  · simp at h

theorem dram_copy_pages_copies (dir fuel : Nat) (s s' : copy_state)
    (h : dram_copy_pages dir fuel s = some s') (hb : s.bytes < 2 ^ 32) :
    ∀ c ∈ s'.copies, c ∈ s.copies ∨
      (0 < copy_total s ∧ c.length ≤ c.avail
        ∧ (∀ k, k < c.length → ∃ i, i < copy_total s
            ∧ s.iter.byte_at i = some (c.page, c.offset + k))
        ∧ (s.addr + copy_total s ≤ 2 ^ 64 →
            s.addr ≤ c.addr ∧ c.addr + c.length ≤ s.addr + copy_total s)) := by
  refine dram_copy_pages_ind dir
    (fun s s' => s.bytes < 2 ^ 32 → ∀ c ∈ s'.copies, c ∈ s.copies ∨
      (0 < copy_total s ∧ c.length ≤ c.avail
        ∧ (∀ k, k < c.length → ∃ i, i < copy_total s
            ∧ s.iter.byte_at i = some (c.page, c.offset + k))
        ∧ (s.addr + copy_total s ≤ 2 ^ 64 →
            s.addr ≤ c.addr ∧ c.addr + c.length ≤ s.addr + copy_total s)))
    ?_ ?_ fuel s s' h hb
  · intro s _ _ c hc
    exact Or.inl hc
  · intro s s1 s' hc hs ih hb c hcm
    obtain ⟨-, -, -, -, f5, -⟩ := copy_step_fields dir s s1 hs
    obtain ⟨b1, b2⟩ := copy_step_bytes dir s s1 hs hb
    obtain ⟨t1, t2⟩ := copy_total_step dir s s1 hs hb
    have hcur := copy_len_le_current s
    have hpos : 0 < copy_total s := by
      obtain ⟨c1, c2⟩ := (dram_copy_cond_iff s).mp hc
      unfold copy_total
      omega
    rcases ih b2 c hcm with hin | ⟨p0, p1, p2, p3⟩
    · rw [f5, List.mem_append] at hin
      rcases hin with hin | hin
      · exact Or.inl hin
      · obtain ⟨e1, e2, e3, e4, e5⟩ := mem_dram_memcpy_log _ _ _ _ _ _ c hin
        refine Or.inr ⟨hpos, by rw [e4, e5]; exact hcur, ?_, ?_⟩
        · intro k hk
          refine ⟨k, by omega, ?_⟩
          rw [e2, e3]
          exact byte_at_current s.iter k (by omega)
        · intro _
          omega
    · refine Or.inr ⟨hpos, p1, ?_, ?_⟩
      · intro k hk
        obtain ⟨j, hj, hat⟩ := p2 k hk
        refine ⟨copy_len s + j, by omega, ?_⟩
        rw [← copy_step_byte_at dir s s1 hs]
        exact hat
      · intro ha
        obtain ⟨a1, a2⟩ := copy_step_addr dir s s1 hs hb ha
        have := p3 a1
        omega

theorem sum_dram_memcpy_log (dir page offset addr length avail : Nat)
    (hdir : dir = OCF_READ ∨ dir = OCF_WRITE) :
    ((dram_memcpy_log dir page offset addr length avail).map (fun c => c.length)).sum
      = length := by
  simp [dram_memcpy_log, hdir]

/-- For a read or a write the lengths of the `memcpy` calls add up to the bytes
transferred. -/
theorem dram_copy_pages_copied (dir fuel : Nat) (s s' : copy_state)
    (h : dram_copy_pages dir fuel s = some s') (hb : s.bytes < 2 ^ 32)
    (hdir : dir = OCF_READ ∨ dir = OCF_WRITE) :
    (s'.copies.map (fun c => c.length)).sum
      = (s.copies.map (fun c => c.length)).sum + copy_total s := by
  refine dram_copy_pages_ind dir
    (fun s s' => s.bytes < 2 ^ 32 →
      (s'.copies.map (fun c => c.length)).sum
        = (s.copies.map (fun c => c.length)).sum + copy_total s)
    ?_ ?_ fuel s s' h hb
  · intro s hc _
    rw [copy_total_of_cond_false s hc, Nat.add_zero]
  · intro s s1 s' hc hs ih hb
    obtain ⟨-, -, -, -, f5, -⟩ := copy_step_fields dir s s1 hs
    obtain ⟨b1, b2⟩ := copy_step_bytes dir s s1 hs hb
    obtain ⟨t1, t2⟩ := copy_total_step dir s s1 hs hb
    rw [ih b2, f5, List.map_append, List.sum_append, sum_dram_memcpy_log _ _ _ _ _ _ hdir]
    omega

/-! ## `dram_dev_submit_io` in terms of the inner loop -/

theorem dram_dev_submit_io_flush (fl : cas_flag_tests) (fuel : Nat) (io : ocf_io)
    (st : dram_state) (hf : dram_is_flush fl io = true) :
    dram_dev_submit_io fl fuel io st = some (ocf_io_end st 0) := by
  simp [dram_dev_submit_io, hf, dram_dev_submit_flush]

theorem dram_dev_submit_io_copy (fl : cas_flag_tests) (fuel : Nat) (io : ocf_io)
    (st : dram_state) (hf : dram_is_flush fl io = false) :
    dram_dev_submit_io fl fuel io st
      = (dram_copy_loop io.dir fuel (dram_copy_init io st)).map
          (fun s => ocf_io_end (dram_copy_commit st s) s.error) := by
  simp only [dram_dev_submit_io, hf, Bool.false_eq_true, if_false]
  cases dram_copy_loop io.dir fuel (dram_copy_init io st) <;> rfl

/-- A submission that returns has run the inner loop to its end. -/
theorem dram_dev_submit_io_inv (fl : cas_flag_tests) (fuel : Nat) (io : ocf_io)
    (st st' : dram_state) (hf : dram_is_flush fl io = false)
    (hb : io.bytes < 2 ^ 32) (ha : io.addr < 2 ^ 64)
    (h : dram_dev_submit_io fl fuel io st = some st') :
    ∃ fuel' s, dram_copy_pages io.dir fuel' (dram_copy_init io st) = some s
      ∧ dram_copy_loop io.dir fuel (dram_copy_init io st) = some s
      ∧ st' = ocf_io_end (dram_copy_commit st s) s.error := by
  rw [dram_dev_submit_io_copy fl fuel io st hf] at h
  cases hl : dram_copy_loop io.dir fuel (dram_copy_init io st) with
  | none => simp [hl] at h
  | some s =>
    simp only [hl, Option.map_some', Option.some.injEq] at h
    obtain ⟨fuel', hp⟩ := dram_copy_loop_inv io.dir fuel _ s hl rfl hb ha
    exact ⟨fuel', s, hp, rfl, h.symm⟩

/-- On an open volume and a buffer without exhausted segments the submission returns. -/
theorem dram_dev_submit_io_run (fl : cas_flag_tests) (fuel : Nat) (io : ocf_io)
    (st : dram_state) (hf : dram_is_flush fl io = false)
    (hb : io.bytes < 2 ^ 32) (ha : io.addr < 2 ^ 64)
    (hne : st.dio.iter.segs_nonempty = true) (hd : st.dobj.data.isSome = true)
    (hfuel : st.dio.iter.vec.length + 3 ≤ fuel) :
    ∃ s, dram_copy_pages io.dir (fuel - 1) (dram_copy_init io st) = some s
      ∧ dram_copy_loop io.dir fuel (dram_copy_init io st) = some s
      ∧ dram_dev_submit_io fl fuel io st
          = some (ocf_io_end (dram_copy_commit st s) s.error) := by
  obtain ⟨k, rfl⟩ : ∃ k, fuel = k + 1 := ⟨fuel - 1, by omega⟩
  obtain ⟨s, hs⟩ := dram_copy_pages_terminates io.dir k (dram_copy_init io st) hne hb hd
    (Or.inl (by simp only [dram_copy_init]; omega))
  have hl := dram_copy_loop_of_pages io.dir k _ s hs rfl hb ha (by omega)
  refine ⟨s, hs, hl, ?_⟩
  rw [dram_dev_submit_io_copy fl _ io st hf, hl]
  rfl

/-- A cursor resting on an exhausted segment with bytes still to come, and a request
for at least one byte: the submission returns for no amount of fuel. -/
theorem dram_dev_submit_io_hang (fl : cas_flag_tests) (fuel : Nat) (io : ocf_io)
    (st : dram_state) (hf : dram_is_flush fl io = false)
    (hb : io.bytes < 2 ^ 32) (h1 : io.bytes ≠ 0)
    (hnext : cas_io_iter_is_next st.dio.iter = true)
    (h0 : cas_io_iter_current_length st.dio.iter = 0) :
    dram_dev_submit_io fl fuel io st = none := by
  rw [dram_dev_submit_io_copy fl fuel io st hf, dram_copy_loop_hang]
  · rfl
  · simp [dram_copy_cond, dram_copy_init, hnext, h1]
  · exact h0
  · exact hb

theorem iter_bytes_left_zero (vec : List bio_vec) :
    iter_bytes_left vec 0 = (vec.map (fun s => s.bv_len)).sum := by
  induction vec with
  | nil => rfl
  | cons s rest ih => simp [iter_bytes_left, ih]

theorem dram_dev_get_byte_length_eq (dobj : dram_object) (h : dobj.capacity < 2 ^ 32) :
    dram_dev_get_byte_length dobj = dobj.capacity * 2 ^ 30 := by
  unfold dram_dev_get_byte_length
  simp only [Nat.shiftLeft_eq]
  norm_num at h ⊢
  omega

theorem dram_dev_get_byte_length_lt (dobj : dram_object) :
    dram_dev_get_byte_length dobj < 2 ^ 64 := by
  unfold dram_dev_get_byte_length
  exact Nat.mod_lt _ (by norm_num)

theorem iter_segs_nonempty_zero (vec : List bio_vec) :
    iter_segs_nonempty vec 0 = true ↔ ∀ s ∈ vec, 0 < s.bv_len := by
  induction vec with
  | nil => simp [iter_segs_nonempty]
  | cons s rest ih => simp [iter_segs_nonempty, ih]

theorem dram_io_set_data_zero (dio : dram_io) (d : blk_data) :
    dram_io_set_data dio (some d) 0
      = ({ data := some d, iter := { vec := d.vec, idx := 0, offset := 0 } }, 0) := by
  simp [dram_io_set_data, cas_io_iter_init, blk_data.size, cas_io_iter_move_zero]

/-! ## C1: a request that fits the volume and the buffer -/

/-- C1 (amended): for a read or write request that is not a pure flush, on an open
volume, with `addr + bytes` within the capacity and a bound buffer that has at least
`bytes` bytes left and no exhausted segment from the cursor on, the request completes
with code 0, the `memcpy` lengths add up to `bytes` and the iterator has moved by `bytes`.
After a write `store[addr + i]` is the `i`-th remaining byte of the buffer for `i < bytes`
and every other store byte (and the buffer) is unchanged; after a read the `i`-th
remaining byte of the buffer is `store[addr + i]` for `i < bytes` and the store is
unchanged. -/
theorem dram_dev_submit_io_transfers (fl : cas_flag_tests) (fuel : Nat) (io : ocf_io)
    (st : dram_state) (store : Nat → Nat)
    (hflush : dram_is_flush fl io = false)
    (hdir : io.dir = OCF_READ ∨ io.dir = OCF_WRITE)
    (hb : io.bytes < 2 ^ 32)
    (hcap : io.addr + io.bytes ≤ dram_dev_get_byte_length st.dobj)
    (hopen : st.dobj.data = some store)
    (hbuf : io.bytes ≤ st.dio.iter.bytes_left)
    (hne : st.dio.iter.segs_nonempty = true)
    (hfuel : st.dio.iter.vec.length + 3 ≤ fuel) :
    ∃ st' copies, dram_dev_submit_io fl fuel io st = some st'
      ∧ st'.ended = st.ended ++ [0]
      ∧ dram_dev_submit_io_copies fl fuel io st = some copies
      ∧ (copies.map (fun c => c.length)).sum = io.bytes
      ∧ st'.dio.iter = (cas_io_iter_move st.dio.iter io.bytes).1
      ∧ (io.dir = OCF_WRITE →
          st'.pages = st.pages ∧ ∃ store', st'.dobj.data = some store' ∧ ∀ a, store' a =
            if io.addr ≤ a ∧ a < io.addr + io.bytes
            then st.dio.iter.byte st.pages (a - io.addr) else store a)
      ∧ (io.dir = OCF_READ →
          st'.dobj.data = some store
          ∧ ∀ i, i < io.bytes → st.dio.iter.byte st'.pages i = store (io.addr + i)) := by
  have hlen := dram_dev_get_byte_length_lt st.dobj
  have ha : io.addr < 2 ^ 64 := by omega
  obtain ⟨s, hs, hl, hsub⟩ := dram_dev_submit_io_run fl fuel io st hflush hb ha hne
    (by rw [hopen]; rfl) hfuel
  have htot : copy_total (dram_copy_init io st) = io.bytes := by
    simp only [copy_total, dram_copy_init]
    omega
  obtain ⟨e1, -, -, e4, -⟩ := dram_copy_pages_locals io.dir _ _ s hs hb ha
  have hsum := dram_copy_pages_copied io.dir _ _ s hs hb hdir
  rw [htot] at e4 hsum
  have ha2 : (dram_copy_init io st).addr + copy_total (dram_copy_init io st) ≤ 2 ^ 64 := by
    rw [htot]
    simp only [dram_copy_init]
    omega
  refine ⟨_, s.copies, hsub, ?_, ?_, ?_, ?_, ?_, ?_⟩
  · rw [e1]; rfl
  · simp [dram_dev_submit_io_copies, hflush, hl]
  · simpa [dram_copy_init] using hsum
  · exact e4
  · intro hw
    rw [hw] at hs
    obtain ⟨w1, store', w2, w3⟩ := dram_copy_pages_write _ _ s hs store hopen hb ha2
    rw [htot] at w3
    exact ⟨w1, store', w2, w3⟩
  · intro hr
    rw [hr] at hs
    obtain ⟨r1, r2, -⟩ := dram_copy_pages_read _ _ s hs store hopen hb ha2
    rw [htot] at r2
    exact ⟨r1, r2⟩

/-- C1 (witness): a read of 128 bytes at address 4096 into a buffer of two segments
(100 and 28 bytes) bound at offset 0. -/
theorem dram_dev_submit_io_transfers_witness :
    ∃ st' copies,
      dram_dev_submit_io sample_flag_tests 5
          { addr := 4096, bytes := 128, dir := OCF_READ, flags := 0 }
          (sample_state [⟨16, 100⟩, ⟨0, 28⟩] 0) = some st'
      ∧ st'.ended = (sample_state [⟨16, 100⟩, ⟨0, 28⟩] 0).ended ++ [0]
      ∧ dram_dev_submit_io_copies sample_flag_tests 5
          { addr := 4096, bytes := 128, dir := OCF_READ, flags := 0 }
          (sample_state [⟨16, 100⟩, ⟨0, 28⟩] 0) = some copies
      ∧ (copies.map (fun c => c.length)).sum = 128
      ∧ st'.dio.iter
          = (cas_io_iter_move (sample_state [⟨16, 100⟩, ⟨0, 28⟩] 0).dio.iter 128).1
      ∧ (OCF_READ = OCF_WRITE →
          st'.pages = (sample_state [⟨16, 100⟩, ⟨0, 28⟩] 0).pages
          ∧ ∃ store', st'.dobj.data = some store' ∧ ∀ a, store' a =
            if 4096 ≤ a ∧ a < 4096 + 128
            then (sample_state [⟨16, 100⟩, ⟨0, 28⟩] 0).dio.iter.byte
              (sample_state [⟨16, 100⟩, ⟨0, 28⟩] 0).pages (a - 4096)
            else (fun _ => 0) a)
      ∧ (OCF_READ = OCF_READ →
          st'.dobj.data = some (fun _ => 0)
          ∧ ∀ i, i < 128 →
            (sample_state [⟨16, 100⟩, ⟨0, 28⟩] 0).dio.iter.byte st'.pages i
              = (fun _ => 0) (4096 + i)) :=
  dram_dev_submit_io_transfers sample_flag_tests 5
    { addr := 4096, bytes := 128, dir := OCF_READ, flags := 0 }
    (sample_state [⟨16, 100⟩, ⟨0, 28⟩] 0) (fun _ => 0)
    (by decide) (Or.inl rfl) (by decide) (by decide) rfl (by decide) (by decide) (by decide)

/-- C1 (counterexample): a buffer of an empty segment followed by a 4-byte segment,
bound at offset 0, has 4 bytes left; a write of 4 bytes at address 0 of a volume of
`1 << 30` bytes never completes, because the cursor rests on the empty segment. -/
theorem dram_dev_submit_io_transfers_fails :
    (dram_is_flush sample_flag_tests
        { addr := 0, bytes := 4, dir := OCF_WRITE, flags := 0 } = false
      ∧ 0 + 4 ≤ dram_dev_get_byte_length (sample_state [⟨0, 0⟩, ⟨0, 4⟩] 0).dobj
      ∧ 4 ≤ (sample_state [⟨0, 0⟩, ⟨0, 4⟩] 0).dio.iter.bytes_left)
    ∧ ¬ ∃ fuel st',
        dram_dev_submit_io sample_flag_tests fuel
          { addr := 0, bytes := 4, dir := OCF_WRITE, flags := 0 }
          (sample_state [⟨0, 0⟩, ⟨0, 4⟩] 0) = some st' := by
  refine ⟨by decide, ?_⟩
  rintro ⟨fuel, st', h⟩
  rw [dram_dev_submit_io_hang sample_flag_tests fuel _ _ (by decide) (by decide) (by decide)
    (by decide) (by decide)] at h
  exact Option.noConfusion h

/-! ## C2: read after write -/

/-- C2 (amended): for every range `[addr, addr + n)` within the capacity of an open
volume and every buffer of `n` bytes in any layout of non-empty segments, a write of `n`
bytes at `addr` from that buffer (bound at offset 0) followed by a read of `n` bytes at
`addr` into a second `n`-byte buffer of non-empty segments (bound at offset 0) leaves the
second buffer byte for byte equal to the written data; both binds return 0 and both
requests complete with 0. -/
theorem dram_dev_write_then_read (fl : cas_flag_tests) (fuelw fuelr : Nat)
    (dobj : dram_object) (store : Nat → Nat) (d1 d2 : blk_data) (dio1 dio2 : dram_io)
    (pages1 pages2 : Nat → Nat → Nat) (addr n flagsw flagsr : Nat)
    (hopen : dobj.data = some store) (hn : n < 2 ^ 32)
    (hcap : addr + n ≤ dram_dev_get_byte_length dobj)
    (hd1 : d1.total = n) (hd2 : d2.total = n)
    (hne1 : ∀ s ∈ d1.vec, 0 < s.bv_len) (hne2 : ∀ s ∈ d2.vec, 0 < s.bv_len)
    (hfw : dram_is_flush fl { addr := addr, bytes := n, dir := OCF_WRITE, flags := flagsw }
      = false)
    (hfr : dram_is_flush fl { addr := addr, bytes := n, dir := OCF_READ, flags := flagsr }
      = false)
    (hfuelw : d1.vec.length + 3 ≤ fuelw) (hfuelr : d2.vec.length + 3 ≤ fuelr) :
    (dram_io_set_data dio1 (some d1) 0).2 = 0
    ∧ (dram_io_set_data dio2 (some d2) 0).2 = 0
    ∧ ∃ st1 st2,
        dram_dev_submit_io fl fuelw
          { addr := addr, bytes := n, dir := OCF_WRITE, flags := flagsw }
          { dobj := dobj, dio := (dram_io_set_data dio1 (some d1) 0).1, pages := pages1,
            ended := [] } = some st1
        ∧ st1.ended = [0]
        ∧ dram_dev_submit_io fl fuelr
            { addr := addr, bytes := n, dir := OCF_READ, flags := flagsr }
            { dobj := st1.dobj, dio := (dram_io_set_data dio2 (some d2) 0).1,
              pages := pages2, ended := [] } = some st2
        ∧ st2.ended = [0]
        ∧ ∀ i, i < n →
            (dram_io_set_data dio2 (some d2) 0).1.iter.byte st2.pages i
              = (dram_io_set_data dio1 (some d1) 0).1.iter.byte pages1 i := by
  have hlen := dram_dev_get_byte_length_lt dobj
  have ha : addr < 2 ^ 64 := by omega
  simp only [dram_io_set_data_zero, true_and]
  have hl1 : iter_bytes_left d1.vec 0 = n := by rw [iter_bytes_left_zero]; exact hd1
  have hl2 : iter_bytes_left d2.vec 0 = n := by rw [iter_bytes_left_zero]; exact hd2
  -- the write
  obtain ⟨s1, hs1, -, hsub1⟩ := dram_dev_submit_io_run fl fuelw
    { addr := addr, bytes := n, dir := OCF_WRITE, flags := flagsw }
    { dobj := dobj, dio := { data := some d1, iter := { vec := d1.vec, idx := 0, offset := 0 } },
      pages := pages1, ended := [] } hfw hn ha
    ((iter_segs_nonempty_zero d1.vec).mpr hne1) (by rw [hopen]; rfl) hfuelw
  have htot1 : copy_total (dram_copy_init
      { addr := addr, bytes := n, dir := OCF_WRITE, flags := flagsw }
      { dobj := dobj,
        dio := { data := some d1, iter := { vec := d1.vec, idx := 0, offset := 0 } },
        pages := pages1, ended := [] }) = n := by
    simp only [copy_total, dram_copy_init, bio_vec_iter.bytes_left, hl1]
    omega
  obtain ⟨e1, -⟩ := dram_copy_pages_locals _ _ _ s1 hs1 hn ha
  obtain ⟨-, store1, w2, w3⟩ := dram_copy_pages_write _ _ s1 hs1 store hopen hn
    (by rw [htot1]; simp only [dram_copy_init]; omega)
  rw [htot1] at w3
  simp only [dram_copy_init] at w3 e1
  -- the read
  obtain ⟨s2, hs2, -, hsub2⟩ := dram_dev_submit_io_run fl fuelr
    { addr := addr, bytes := n, dir := OCF_READ, flags := flagsr }
    { dobj := { dobj with data := s1.data },
      dio := { data := some d2, iter := { vec := d2.vec, idx := 0, offset := 0 } },
      pages := pages2, ended := [] } hfr hn ha
    ((iter_segs_nonempty_zero d2.vec).mpr hne2) (by rw [w2]; rfl) hfuelr
  have htot2 : copy_total (dram_copy_init
      { addr := addr, bytes := n, dir := OCF_READ, flags := flagsr }
      { dobj := { dobj with data := s1.data },
        dio := { data := some d2, iter := { vec := d2.vec, idx := 0, offset := 0 } },
        pages := pages2, ended := [] }) = n := by
    simp only [copy_total, dram_copy_init, bio_vec_iter.bytes_left, hl2]
    omega
  obtain ⟨e2, -⟩ := dram_copy_pages_locals _ _ _ s2 hs2 hn ha
  obtain ⟨-, r2, -⟩ := dram_copy_pages_read _ _ s2 hs2 store1 w2 hn
    (by rw [htot2]; simp only [dram_copy_init]; omega)
  rw [htot2] at r2
  simp only [dram_copy_init] at r2 e2
  refine ⟨_, _, hsub1, ?_, hsub2, ?_, ?_⟩
  · simp [ocf_io_end, dram_copy_commit, e1]
  · simp [ocf_io_end, dram_copy_commit, e2]
  · intro i hi
    have hr : addr ≤ addr + i ∧ addr + i < addr + n := by omega
    simp only [ocf_io_end, dram_copy_commit]
    rw [r2 i hi, w3 (addr + i), if_pos hr, Nat.add_sub_cancel_left]

/-- C2 (witness): capacity `1 << 30`, one segment of 4096 bytes, write then read of 4096
bytes at address 0. -/
theorem dram_dev_write_then_read_witness :
    (dram_io_set_data { data := none, iter := { vec := [], idx := 0, offset := 0 } }
        (some { vec := [⟨0, 4096⟩] }) 0).2 = 0
    ∧ (dram_io_set_data { data := none, iter := { vec := [], idx := 0, offset := 0 } }
        (some { vec := [⟨0, 4096⟩] }) 0).2 = 0
    ∧ ∃ st1 st2,
        dram_dev_submit_io sample_flag_tests 4
          { addr := 0, bytes := 4096, dir := OCF_WRITE, flags := 0 }
          { dobj := sample_volume,
            dio := (dram_io_set_data
              { data := none, iter := { vec := [], idx := 0, offset := 0 } }
              (some { vec := [⟨0, 4096⟩] }) 0).1,
            pages := sample_pages, ended := [] } = some st1
        ∧ st1.ended = [0]
        ∧ dram_dev_submit_io sample_flag_tests 4
            { addr := 0, bytes := 4096, dir := OCF_READ, flags := 0 }
            { dobj := st1.dobj,
              dio := (dram_io_set_data
                { data := none, iter := { vec := [], idx := 0, offset := 0 } }
                (some { vec := [⟨0, 4096⟩] }) 0).1,
              pages := fun _ _ => 0, ended := [] } = some st2
        ∧ st2.ended = [0]
        ∧ ∀ i, i < 4096 →
            (dram_io_set_data { data := none, iter := { vec := [], idx := 0, offset := 0 } }
              (some { vec := [⟨0, 4096⟩] }) 0).1.iter.byte st2.pages i
            = (dram_io_set_data { data := none, iter := { vec := [], idx := 0, offset := 0 } }
              (some { vec := [⟨0, 4096⟩] }) 0).1.iter.byte sample_pages i :=
  dram_dev_write_then_read sample_flag_tests 4 4 sample_volume (fun _ => 0)
    { vec := [⟨0, 4096⟩] } { vec := [⟨0, 4096⟩] }
    { data := none, iter := { vec := [], idx := 0, offset := 0 } }
    { data := none, iter := { vec := [], idx := 0, offset := 0 } }
    sample_pages (fun _ _ => 0) 0 4096 0 0
    rfl (by decide) (by decide) (by decide) (by decide) (by decide) (by decide)
    (by decide) (by decide) (by decide) (by decide)

/-- C2 (counterexample): one byte of buffer content laid out as an empty segment followed
by a 1-byte segment; the write of that byte at address 0 of a volume of `1 << 30` bytes
never completes, so no read after it returns the data. -/
theorem dram_dev_write_then_read_fails :
    (blk_data.total { vec := [⟨0, 0⟩, ⟨0, 1⟩] } = 1
      ∧ 0 + 1 ≤ dram_dev_get_byte_length sample_volume
      ∧ (dram_io_set_data { data := none, iter := { vec := [], idx := 0, offset := 0 } }
          (some { vec := [⟨0, 0⟩, ⟨0, 1⟩] }) 0).2 = 0)
    ∧ ¬ ∃ fuel st1,
        dram_dev_submit_io sample_flag_tests fuel
          { addr := 0, bytes := 1, dir := OCF_WRITE, flags := 0 }
          { dobj := sample_volume,
            dio := (dram_io_set_data
              { data := none, iter := { vec := [], idx := 0, offset := 0 } }
              (some { vec := [⟨0, 0⟩, ⟨0, 1⟩] }) 0).1,
            pages := sample_pages, ended := [] } = some st1 := by
  refine ⟨by decide, ?_⟩
  rintro ⟨fuel, st1, h⟩
  rw [dram_dev_submit_io_hang sample_flag_tests fuel _ _ (by decide) (by decide) (by decide)
    (by decide) (by decide)] at h
  exact Option.noConfusion h

/-! ## C3: a buffer shorter than the request -/

/-- C3 (the code at the failing input): a 100-byte buffer bound at offset 0 (the bind
returns 0) and a write of 200 bytes at address 0: `dram_dev_submit_io` completes the
request once, with code 0 and not with `-ENOBUFS`, although only 100 of the 200 bytes
were in the buffer. -/
theorem dram_dev_submit_io_short_buffer_code :
    (sample_state [⟨0, 100⟩] 0).dio.iter.bytes_left = 100
    ∧ (dram_dev_submit_io sample_flag_tests 4
        { addr := 0, bytes := 200, dir := OCF_WRITE, flags := 0 }
        (sample_state [⟨0, 100⟩] 0)).map (fun s => s.ended) = some [0] := by
  decide

/-! ## C4: the ranges of the copies -/

/-- C4 (amended): every `memcpy` of a submission that returns stays inside the remaining
sub-range `[offset, offset + avail)` of the iterator's current segment and copies bytes
of the bound buffer only; it stays inside the backing store `[0, capacity_bytes)` when
the request has `addr + bytes` within the capacity.  (The address itself is never
compared with the capacity.) -/
theorem dram_dev_submit_io_copies_in_bounds (fl : cas_flag_tests) (fuel : Nat)
    (io : ocf_io) (st : dram_state) (copies : List copy_record)
    (hb : io.bytes < 2 ^ 32) (ha : io.addr < 2 ^ 64)
    (h : dram_dev_submit_io_copies fl fuel io st = some copies) :
    ∀ c ∈ copies,
      c.length ≤ c.avail
      ∧ (∀ k, k < c.length → ∃ i, i < st.dio.iter.bytes_left
          ∧ st.dio.iter.byte_at i = some (c.page, c.offset + k))
      ∧ (io.addr + io.bytes ≤ dram_dev_get_byte_length st.dobj →
          c.addr + c.length ≤ dram_dev_get_byte_length st.dobj) := by
  intro c hc
  by_cases hf : dram_is_flush fl io = true
  · simp [dram_dev_submit_io_copies, hf] at h
    subst h
    simp at hc
  · have hf' : dram_is_flush fl io = false := by simpa using hf
    simp only [dram_dev_submit_io_copies, hf', Bool.false_eq_true, if_false] at h
    cases hl : dram_copy_loop io.dir fuel (dram_copy_init io st) with
    | none => simp [hl] at h
    | some s =>
      simp only [hl, Option.map_some', Option.some.injEq] at h
      subst h
      obtain ⟨fuel', hp⟩ := dram_copy_loop_inv io.dir fuel _ s hl rfl hb ha
      have hlen := dram_dev_get_byte_length_lt st.dobj
      have htot : copy_total (dram_copy_init io st) ≤ io.bytes
          ∧ copy_total (dram_copy_init io st) ≤ st.dio.iter.bytes_left := by
        simp only [copy_total, dram_copy_init]
        omega
      rcases dram_copy_pages_copies io.dir fuel' _ s hp hb c hc with hin | ⟨-, p1, p2, p3⟩
      · simp [dram_copy_init] at hin
      · refine ⟨p1, ?_, ?_⟩
        · intro k hk
          obtain ⟨i, hi, hat⟩ := p2 k hk
          exact ⟨i, by omega, hat⟩
        · intro hcap
          simp only [dram_copy_init] at p3 htot
          have := p3 (by omega)
          omega

/-- C4 (witness): a read of 128 bytes at address 4096 into a buffer of two segments makes
two copies, both in bounds. -/
theorem dram_dev_submit_io_copies_in_bounds_witness :
    dram_dev_submit_io_copies sample_flag_tests 5
        { addr := 4096, bytes := 128, dir := OCF_READ, flags := 0 }
        (sample_state [⟨16, 100⟩, ⟨0, 28⟩] 0)
      = some [{ dir := OCF_READ, addr := 4096, page := 0, offset := 16, length := 100,
                avail := 100 },
              { dir := OCF_READ, addr := 4196, page := 1, offset := 0, length := 28,
                avail := 28 }]
    ∧ ∀ c ∈ [({ dir := OCF_READ, addr := 4096, page := 0, offset := 16, length := 100,
                avail := 100 } : copy_record),
             { dir := OCF_READ, addr := 4196, page := 1, offset := 0, length := 28,
               avail := 28 }],
        c.length ≤ c.avail
        ∧ (∀ k, k < c.length →
            ∃ i, i < (sample_state [⟨16, 100⟩, ⟨0, 28⟩] 0).dio.iter.bytes_left
              ∧ (sample_state [⟨16, 100⟩, ⟨0, 28⟩] 0).dio.iter.byte_at i
                  = some (c.page, c.offset + k))
        ∧ (4096 + 128 ≤ dram_dev_get_byte_length (sample_state [⟨16, 100⟩, ⟨0, 28⟩] 0).dobj →
            c.addr + c.length
              ≤ dram_dev_get_byte_length (sample_state [⟨16, 100⟩, ⟨0, 28⟩] 0).dobj) :=
  ⟨by decide,
   dram_dev_submit_io_copies_in_bounds sample_flag_tests 5
     { addr := 4096, bytes := 128, dir := OCF_READ, flags := 0 }
     (sample_state [⟨16, 100⟩, ⟨0, 28⟩] 0) _ (by decide) (by decide) (by decide)⟩

/-- C4 (counterexample): a write of 1 byte at address `1 << 30` of a volume of `1 << 30`
bytes reaches the copy loop and copies to the store range `[1 << 30, (1 << 30) + 1)`,
which is not inside the backing store. -/
theorem dram_dev_submit_io_copies_out_of_store :
    dram_dev_submit_io_copies sample_flag_tests 4
        { addr := 1073741824, bytes := 1, dir := OCF_WRITE, flags := 0 }
        (sample_state [⟨0, 1⟩] 0)
      = some [{ dir := OCF_WRITE, addr := 1073741824, page := 0, offset := 0, length := 1,
                avail := 1 }]
    ∧ dram_dev_get_byte_length (sample_state [⟨0, 1⟩] 0).dobj = 1073741824
    ∧ ¬ (1073741824 + 1 ≤ dram_dev_get_byte_length (sample_state [⟨0, 1⟩] 0).dobj) := by
  decide

/-! ## C5: binding a buffer -/

/-- C5: binding a non-null buffer of total length `L` at `offset` returns `-ENOBUFS`
exactly when `offset > L` and 0 otherwise; the buffer reference is stored, and when
`offset ≤ L` the iterator stands at logical byte `offset` of the concatenated segments
with `L - offset` bytes left.  Binding a null buffer returns 0. -/
theorem dram_io_set_data_bind (dio : dram_io) (d : blk_data) (offset : Nat) :
    ((dram_io_set_data dio (some d) offset).2 = -ENOBUFS ↔ d.total < offset)
    ∧ (dram_io_set_data dio (some d) offset).2 = (if d.total < offset then -ENOBUFS else 0)
    ∧ (dram_io_set_data dio (some d) offset).1.data = some d
    ∧ (dram_io_set_data dio (some d) offset).1.iter.bytes_left = d.total - offset
    ∧ (∀ i, (dram_io_set_data dio (some d) offset).1.iter.byte_at i
        = iter_byte_at d.vec 0 0 (min offset d.total + i))
    ∧ (dram_io_set_data dio none offset).2 = 0 := by
  have hinit : cas_io_iter_init d.vec d.size = { vec := d.vec, idx := 0, offset := 0 } := by
    simp [cas_io_iter_init, blk_data.size]
  have hleft : (cas_io_iter_init d.vec d.size).bytes_left = d.total := by
    rw [hinit]
    simp only [bio_vec_iter.bytes_left, iter_bytes_left_zero, blk_data.total]
  have hmv := cas_io_iter_move_moved (cas_io_iter_init d.vec d.size) offset
  have hbl := cas_io_iter_move_bytes_left (cas_io_iter_init d.vec d.size) offset
  have hat := cas_io_iter_move_byte_at (cas_io_iter_init d.vec d.size) offset
  rw [hleft] at hmv hbl hat
  have hret : (dram_io_set_data dio (some d) offset).2
      = (if d.total < offset then -ENOBUFS else 0) := by
    simp only [dram_io_set_data, hmv]
    by_cases hlt : d.total < offset
    · have : offset ≠ min offset d.total := by omega
      simp [hlt, this]
    · have : offset = min offset d.total := by omega
      simp [hlt, ← this]
  have hfst : (dram_io_set_data dio (some d) offset).1
      = { data := some d, iter := (cas_io_iter_move (cas_io_iter_init d.vec d.size) offset).1 } := by
    simp only [dram_io_set_data]
    split <;> rfl
  refine ⟨?_, hret, ?_, ?_, ?_, rfl⟩
  · rw [hret]
    by_cases hlt : d.total < offset
    · simp [hlt]
    · simp [hlt, ENOBUFS]
  · rw [hfst]
  · rw [hfst]; exact hbl
  · intro i
    rw [hfst]
    simp only []
    rw [hat i, hinit]
    rfl

/-! ## C6: flush and discard -/

/-- C6: `dram_dev_submit_flush` and `dram_dev_submit_discard` complete every request with
code 0, and so does `dram_dev_submit_io` when the flags are a pure flush (write-flush set,
write-flush-FUA not set), whatever the direction, address, byte count, bound buffer and
fuel; in all three cases the volume (store and capacity), the buffer memory and the
request's private data (buffer reference and iterator) are unchanged. -/
theorem dram_dev_flush_discard_trivial (st : dram_state) :
    (dram_dev_submit_flush st).ended = st.ended ++ [0]
    ∧ (dram_dev_submit_flush st).dobj = st.dobj
    ∧ (dram_dev_submit_flush st).dio = st.dio
    ∧ (dram_dev_submit_flush st).pages = st.pages
    ∧ (dram_dev_submit_discard st).ended = st.ended ++ [0]
    ∧ (dram_dev_submit_discard st).dobj = st.dobj
    ∧ (dram_dev_submit_discard st).dio = st.dio
    ∧ (dram_dev_submit_discard st).pages = st.pages
    ∧ ∀ (fl : cas_flag_tests) (fuel : Nat) (io : ocf_io),
        fl.CAS_IS_WRITE_FLUSH io.flags = true →
        fl.CAS_IS_WRITE_FLUSH_FUA io.flags = false →
        ∃ st', dram_dev_submit_io fl fuel io st = some st'
          ∧ st'.ended = st.ended ++ [0]
          ∧ st'.dobj = st.dobj ∧ st'.dio = st.dio ∧ st'.pages = st.pages := by
  refine ⟨rfl, rfl, rfl, rfl, rfl, rfl, rfl, rfl, ?_⟩
  intro fl fuel io h1 h2
  have hf : dram_is_flush fl io = true := by simp [dram_is_flush, h1, h2]
  exact ⟨_, dram_dev_submit_io_flush fl fuel io st hf, rfl, rfl, rfl, rfl⟩

/-- C6 (witness): a pure flush (flags 1) with direction write, 200 bytes and a 100-byte
buffer completes with 0, even without fuel, and changes nothing else. -/
theorem dram_dev_flush_discard_trivial_witness :
    sample_flag_tests.CAS_IS_WRITE_FLUSH 1 = true
    ∧ sample_flag_tests.CAS_IS_WRITE_FLUSH_FUA 1 = false
    ∧ ∃ st', dram_dev_submit_io sample_flag_tests 0
          { addr := 0, bytes := 200, dir := OCF_WRITE, flags := 1 }
          (sample_state [⟨0, 100⟩] 0) = some st'
        ∧ st'.ended = (sample_state [⟨0, 100⟩] 0).ended ++ [0]
        ∧ st'.dobj = (sample_state [⟨0, 100⟩] 0).dobj
        ∧ st'.dio = (sample_state [⟨0, 100⟩] 0).dio
        ∧ st'.pages = (sample_state [⟨0, 100⟩] 0).pages :=
  ⟨by decide, by decide,
   (dram_dev_flush_discard_trivial (sample_state [⟨0, 100⟩] 0)).2.2.2.2.2.2.2.2
     sample_flag_tests 0 { addr := 0, bytes := 200, dir := OCF_WRITE, flags := 1 }
     (by decide) (by decide)⟩

/-! ## C7: write with flush and force-unit-access -/

/-- C7: a request whose flags satisfy `CAS_IS_WRITE_FLUSH_FUA` does not take the flush
branch, and `dram_dev_submit_io` does on it exactly what it does on the same request with
flags that are no flush: the same store, buffer memory, iterator and completion code. -/
theorem dram_dev_submit_io_flush_fua (fl : cas_flag_tests) (fuel : Nat) (io : ocf_io)
    (st : dram_state) (flags : Nat)
    (hfua : fl.CAS_IS_WRITE_FLUSH_FUA io.flags = true)
    (hplain : fl.CAS_IS_WRITE_FLUSH flags = false) :
    dram_is_flush fl io = false
    ∧ dram_dev_submit_io fl fuel io st
        = dram_dev_submit_io fl fuel { io with flags := flags } st := by
  have h1 : dram_is_flush fl io = false := by simp [dram_is_flush, hfua]
  have h2 : dram_is_flush fl { io with flags := flags } = false := by
    simp [dram_is_flush, hplain]
  refine ⟨h1, ?_⟩
  rw [dram_dev_submit_io_copy fl fuel io st h1, dram_dev_submit_io_copy fl fuel _ st h2]
  rfl

/-- C7 (witness): a write of 8 bytes with flags 3 (flush and FUA) and the same write with
flags 0; the request with flags 3 completes once with code 0. -/
theorem dram_dev_submit_io_flush_fua_witness :
    (dram_dev_submit_io sample_flag_tests 4
        { addr := 64, bytes := 8, dir := OCF_WRITE, flags := 3 }
        (sample_state [⟨0, 8⟩] 0)).map (fun s => s.ended) = some [0]
    ∧ dram_is_flush sample_flag_tests
        { addr := 64, bytes := 8, dir := OCF_WRITE, flags := 3 } = false
    ∧ dram_dev_submit_io sample_flag_tests 4
        { addr := 64, bytes := 8, dir := OCF_WRITE, flags := 3 } (sample_state [⟨0, 8⟩] 0)
      = dram_dev_submit_io sample_flag_tests 4
        { ({ addr := 64, bytes := 8, dir := OCF_WRITE, flags := 3 } : ocf_io)
          with flags := 0 }
        (sample_state [⟨0, 8⟩] 0) :=
  ⟨by decide,
   dram_dev_submit_io_flush_fua sample_flag_tests 4
     { addr := 64, bytes := 8, dir := OCF_WRITE, flags := 3 } (sample_state [⟨0, 8⟩] 0) 0
     (by decide) (by decide)⟩

/-! ## C8: one completion for each request -/

/-- A submission that returns has called `io->end` once, with code 0. -/
theorem dram_dev_submit_io_ended (fl : cas_flag_tests) (fuel : Nat) (io : ocf_io)
    (st st' : dram_state) (hb : io.bytes < 2 ^ 32) (ha : io.addr < 2 ^ 64)
    (h : dram_dev_submit_io fl fuel io st = some st') : st'.ended = st.ended ++ [0] := by
  by_cases hf : dram_is_flush fl io = true
  · rw [dram_dev_submit_io_flush fl fuel io st hf] at h
    simp only [Option.some.injEq] at h
    subst h
    rfl
  · have hf' : dram_is_flush fl io = false := by simpa using hf
    obtain ⟨fuel', s, hp, -, hst⟩ := dram_dev_submit_io_inv fl fuel io st st' hf' hb ha h
    obtain ⟨e1, -⟩ := dram_copy_pages_locals io.dir fuel' _ s hp hb ha
    rw [hst, e1]
    rfl

/-- C8 (amended): `dram_dev_submit_flush` and `dram_dev_submit_discard` call `io->end`
exactly once, with code 0.  `dram_dev_submit_io` returns, having called `io->end` exactly
once, for every request that is a pure flush and for every request on an open volume
whose bound buffer has no exhausted segment from the cursor on; and whenever it returns it
has called `io->end` exactly once, with a code that is 0 or `-ENOBUFS`. -/
theorem dram_dev_submit_io_completes_once (fl : cas_flag_tests) (fuel : Nat) (io : ocf_io)
    (st : dram_state) (hb : io.bytes < 2 ^ 32) (ha : io.addr < 2 ^ 64)
    (hok : dram_is_flush fl io = true
      ∨ (st.dio.iter.segs_nonempty = true ∧ st.dobj.data.isSome = true
          ∧ st.dio.iter.vec.length + 3 ≤ fuel)) :
    (dram_dev_submit_flush st).ended = st.ended ++ [0]
    ∧ (dram_dev_submit_discard st).ended = st.ended ++ [0]
    ∧ (∃ st', dram_dev_submit_io fl fuel io st = some st')
    ∧ (∀ fuel' st', dram_dev_submit_io fl fuel' io st = some st' →
        ∃ code, st'.ended = st.ended ++ [code] ∧ (code = 0 ∨ code = -ENOBUFS)) := by
  refine ⟨rfl, rfl, ?_, ?_⟩
  · by_cases hf : dram_is_flush fl io = true
    · exact ⟨_, dram_dev_submit_io_flush fl fuel io st hf⟩
    · have hf' : dram_is_flush fl io = false := by simpa using hf
      rcases hok with hok | ⟨hne, hd, hfuel⟩
      · exact absurd hok hf
      · obtain ⟨s, -, -, hsub⟩ := dram_dev_submit_io_run fl fuel io st hf' hb ha hne hd hfuel
        exact ⟨_, hsub⟩
  · intro fuel' st' h
    exact ⟨0, dram_dev_submit_io_ended fl fuel' io st st' hb ha h, Or.inl rfl⟩

/-- C8 (witness): a write of 200 bytes from a 100-byte buffer. -/
theorem dram_dev_submit_io_completes_once_witness :
    (dram_dev_submit_flush (sample_state [⟨0, 100⟩] 0)).ended
        = (sample_state [⟨0, 100⟩] 0).ended ++ [0]
    ∧ (dram_dev_submit_discard (sample_state [⟨0, 100⟩] 0)).ended
        = (sample_state [⟨0, 100⟩] 0).ended ++ [0]
    ∧ (∃ st', dram_dev_submit_io sample_flag_tests 4
          { addr := 0, bytes := 200, dir := OCF_WRITE, flags := 0 }
          (sample_state [⟨0, 100⟩] 0) = some st')
    ∧ (∀ fuel' st', dram_dev_submit_io sample_flag_tests fuel'
          { addr := 0, bytes := 200, dir := OCF_WRITE, flags := 0 }
          (sample_state [⟨0, 100⟩] 0) = some st' →
        ∃ code, st'.ended = (sample_state [⟨0, 100⟩] 0).ended ++ [code]
          ∧ (code = 0 ∨ code = -ENOBUFS)) :=
  dram_dev_submit_io_completes_once sample_flag_tests 4
    { addr := 0, bytes := 200, dir := OCF_WRITE, flags := 0 } (sample_state [⟨0, 100⟩] 0)
    (by decide) (by decide) (Or.inr (by decide))

/-- C8 (counterexample): a buffer of segments of 3, 0 and 5 bytes bound at offset 3 (the
bind returns 0 and leaves 5 bytes); a read of 5 bytes at address 0 never returns, so
`io->end` is called zero times. -/
theorem dram_dev_submit_io_never_completes :
    (dram_io_set_data { data := none, iter := { vec := [], idx := 0, offset := 0 } }
        (some { vec := [⟨0, 3⟩, ⟨0, 0⟩, ⟨4, 5⟩] }) 3).2 = 0
    ∧ (sample_state [⟨0, 3⟩, ⟨0, 0⟩, ⟨4, 5⟩] 3).dio.iter.bytes_left = 5
    ∧ ¬ ∃ fuel st',
        dram_dev_submit_io sample_flag_tests fuel
          { addr := 0, bytes := 5, dir := OCF_READ, flags := 0 }
          (sample_state [⟨0, 3⟩, ⟨0, 0⟩, ⟨4, 5⟩] 3) = some st' := by
  refine ⟨by decide, by decide, ?_⟩
  rintro ⟨fuel, st', h⟩
  rw [dram_dev_submit_io_hang sample_flag_tests fuel _ _ (by decide) (by decide) (by decide)
    (by decide) (by decide)] at h
  exact Option.noConfusion h

/-! ## C9: a write from a buffer that is too short -/

/-- C9: for a write request that is not a pure flush, on an open volume, whose bound
buffer has only `R < bytes` bytes left (with `[addr, addr + R)` in the 64-bit address
range): whenever `dram_dev_submit_io` returns, the store bytes `[addr, addr + R)` are the
`R` remaining bytes of the buffer and every other store byte, below `addr` and from
`addr + R` on, is unchanged; and it does return when no segment from the cursor on is
exhausted. -/
theorem dram_dev_submit_io_short_write (fl : cas_flag_tests) (io : ocf_io)
    (st : dram_state) (store : Nat → Nat)
    (hflush : dram_is_flush fl io = false) (hdir : io.dir = OCF_WRITE)
    (hb : io.bytes < 2 ^ 32) (ha : io.addr < 2 ^ 64)
    (hopen : st.dobj.data = some store)
    (hshort : st.dio.iter.bytes_left < io.bytes)
    (haddr : io.addr + st.dio.iter.bytes_left ≤ 2 ^ 64) :
    (∀ fuel st', dram_dev_submit_io fl fuel io st = some st' →
      ∃ store', st'.dobj.data = some store' ∧ ∀ a, store' a =
        if io.addr ≤ a ∧ a < io.addr + st.dio.iter.bytes_left
        then st.dio.iter.byte st.pages (a - io.addr) else store a)
    ∧ (st.dio.iter.segs_nonempty = true → ∀ fuel, st.dio.iter.vec.length + 3 ≤ fuel →
        ∃ st', dram_dev_submit_io fl fuel io st = some st') := by
  constructor
  · intro fuel st' h
    obtain ⟨fuel', s, hp, -, hst⟩ := dram_dev_submit_io_inv fl fuel io st st' hflush hb ha h
    have htot : copy_total (dram_copy_init io st) = st.dio.iter.bytes_left := by
      simp only [copy_total, dram_copy_init]
      omega
    rw [hdir] at hp
    obtain ⟨-, store', w2, w3⟩ := dram_copy_pages_write fuel' _ s hp store hopen hb
      (by rw [htot]; exact haddr)
    rw [htot] at w3
    refine ⟨store', ?_, w3⟩
    rw [hst]
    exact w2
  · intro hne fuel hfuel
    obtain ⟨s, -, -, hsub⟩ := dram_dev_submit_io_run fl fuel io st hflush hb ha hne
      (by rw [hopen]; rfl) hfuel
    exact ⟨_, hsub⟩

/-- C9 (witness): a 100-byte buffer and a write of 200 bytes at address 0: the store
bytes `[0, 100)` are the buffer's bytes and the store bytes from 100 on are untouched. -/
theorem dram_dev_submit_io_short_write_witness :
    (∀ fuel st', dram_dev_submit_io sample_flag_tests fuel
          { addr := 0, bytes := 200, dir := OCF_WRITE, flags := 0 }
          (sample_state [⟨0, 100⟩] 0) = some st' →
      ∃ store', st'.dobj.data = some store' ∧ ∀ a, store' a =
        if 0 ≤ a ∧ a < 0 + (sample_state [⟨0, 100⟩] 0).dio.iter.bytes_left
        then (sample_state [⟨0, 100⟩] 0).dio.iter.byte (sample_state [⟨0, 100⟩] 0).pages
          (a - 0)
        else (fun _ => 0) a)
    ∧ ((sample_state [⟨0, 100⟩] 0).dio.iter.segs_nonempty = true →
        ∀ fuel, (sample_state [⟨0, 100⟩] 0).dio.iter.vec.length + 3 ≤ fuel →
        ∃ st', dram_dev_submit_io sample_flag_tests fuel
          { addr := 0, bytes := 200, dir := OCF_WRITE, flags := 0 }
          (sample_state [⟨0, 100⟩] 0) = some st') :=
  dram_dev_submit_io_short_write sample_flag_tests
    { addr := 0, bytes := 200, dir := OCF_WRITE, flags := 0 } (sample_state [⟨0, 100⟩] 0)
    (fun _ => 0) (by decide) rfl (by decide) (by decide) rfl (by decide) (by decide)

/-! ## C10: the reported length -/

/-- C10: for a capacity-unit value `u` that fits 32 bits, after a successful
`dram_dev_open_object` the length `dram_dev_get_byte_length` reports is `u * 2^30`,
below `2^64` (nothing wraps), and it is the size that was passed to `vmalloc`, whose
result is the store. -/
theorem dram_dev_open_byte_length (vmalloc : Nat → Option (Nat → Nat)) (u : Nat)
    (dobj : dram_object) (hu : u < 2 ^ 32)
    (hopen : (dram_dev_open_object vmalloc u dobj).2 = 0) :
    dram_dev_get_byte_length (dram_dev_open_object vmalloc u dobj).1 = u * 2 ^ 30
    ∧ u * 2 ^ 30 < 2 ^ 64
    ∧ dram_dev_open_size (dram_dev_open_object vmalloc u dobj).1.capacity = u * 2 ^ 30
    ∧ (dram_dev_open_object vmalloc u dobj).1.data = vmalloc (u * 2 ^ 30)
    ∧ (dram_dev_open_object vmalloc u dobj).1.data.isSome = true := by
  have hc : (u % 2 ^ 32) % 2 ^ 64 = u := by
    norm_num at hu ⊢
    omega
  have hs : dram_dev_open_size u = u * 2 ^ 30 := by
    unfold dram_dev_open_size
    simp only [Nat.shiftLeft_eq]
    norm_num at hu ⊢
    omega
  have hcap : (dram_dev_open_object vmalloc u dobj).1.capacity = u := by
    simp only [dram_dev_open_object, hc]
    split <;> rfl
  have hdata : (dram_dev_open_object vmalloc u dobj).1.data = vmalloc (u * 2 ^ 30) := by
    simp only [dram_dev_open_object, hc, hs]
    split <;> rfl
  refine ⟨?_, ?_, ?_, hdata, ?_⟩
  · rw [dram_dev_get_byte_length_eq _ (by rw [hcap]; exact hu), hcap]
  · norm_num at hu ⊢
    omega
  · rw [hcap, hs]
  · rw [hdata]
    cases hv : vmalloc (u * 2 ^ 30) with
    | none =>
      have hret : (dram_dev_open_object vmalloc u dobj).2 = -ENOMEM := by
        simp only [dram_dev_open_object, hc, hs, hv]
        rfl
      rw [hret] at hopen
      exact absurd hopen (by decide)
    | some m => rfl

/-- C10 (witness): one capacity unit and an allocator that always returns zeroed
memory. -/
theorem dram_dev_open_byte_length_witness :
    (dram_dev_open_object (fun _ => some (fun _ => 0)) 1 sample_volume).2 = 0
    ∧ dram_dev_get_byte_length
        (dram_dev_open_object (fun _ => some (fun _ => 0)) 1 sample_volume).1 = 1 * 2 ^ 30
    ∧ 1 * 2 ^ 30 < 2 ^ 64
    ∧ dram_dev_open_size
        (dram_dev_open_object (fun _ => some (fun _ => 0)) 1 sample_volume).1.capacity
        = 1 * 2 ^ 30
    ∧ (dram_dev_open_object (fun _ => some (fun _ => 0)) 1 sample_volume).1.data
        = (fun _ => some (fun _ => 0)) (1 * 2 ^ 30)
    ∧ (dram_dev_open_object (fun _ => some (fun _ => 0)) 1 sample_volume).1.data.isSome
        = true :=
  ⟨by decide,
   dram_dev_open_byte_length (fun _ => some (fun _ => 0)) 1 sample_volume (by decide)
     (by decide)⟩

/-! ## C11: the result of opening a volume -/

/-- C11: for a capacity-unit value `u` that fits 32 bits, `dram_dev_open_object` returns
`-ENOMEM` exactly when `vmalloc` returns no memory for `capacity << 30 = u * 2^30` bytes;
otherwise it returns 0 with the capacity set to `u` and the store set to the allocated
region.  It returns no other code, and in both cases the capacity is `u` and the store
pointer is what `vmalloc` returned. -/
theorem dram_dev_open_object_result (vmalloc : Nat → Option (Nat → Nat)) (u : Nat)
    (dobj : dram_object) (hu : u < 2 ^ 32) :
    dram_dev_open_size u = u * 2 ^ 30
    ∧ ((dram_dev_open_object vmalloc u dobj).2 = -ENOMEM
        ↔ vmalloc (dram_dev_open_size u) = none)
    ∧ (vmalloc (dram_dev_open_size u) ≠ none → (dram_dev_open_object vmalloc u dobj).2 = 0)
    ∧ ((dram_dev_open_object vmalloc u dobj).2 = -ENOMEM
        ∨ (dram_dev_open_object vmalloc u dobj).2 = 0)
    ∧ (dram_dev_open_object vmalloc u dobj).1.capacity = u
    ∧ (dram_dev_open_object vmalloc u dobj).1.data = vmalloc (dram_dev_open_size u) := by
  have hc : (u % 2 ^ 32) % 2 ^ 64 = u := by
    norm_num at hu ⊢
    omega
  have hs : dram_dev_open_size u = u * 2 ^ 30 := by
    unfold dram_dev_open_size
    simp only [Nat.shiftLeft_eq]
    norm_num at hu ⊢
    omega
  have hne : (-ENOMEM : Int) ≠ 0 := by decide
  cases hv : vmalloc (dram_dev_open_size u) with
  | none =>
    have hret : dram_dev_open_object vmalloc u dobj
        = ({ data := none, capacity := u }, -ENOMEM) := by
      simp only [dram_dev_open_object, hc, hv]
      rfl
    rw [hret]
    exact ⟨hs, by simp, by simp, Or.inl rfl, rfl, rfl⟩
  | some m =>
    have hret : dram_dev_open_object vmalloc u dobj
        = ({ data := some m, capacity := u }, 0) := by
      simp only [dram_dev_open_object, hc, hv]
      rfl
    rw [hret]
    refine ⟨hs, ?_, by simp, Or.inr rfl, rfl, rfl⟩
    simp only [reduceCtorEq, iff_false]
    exact fun h => hne h.symm

/-- C11 (witness): two capacity units; an allocator without memory makes the open fail
with `-ENOMEM`, an allocator that returns zeroed memory makes it return 0. -/
theorem dram_dev_open_object_result_witness :
    (dram_dev_open_object (fun _ => none) 2 sample_volume).2 = -ENOMEM
    ∧ (dram_dev_open_object (fun _ => some (fun _ => 0)) 2 sample_volume).2 = 0
    ∧ (dram_dev_open_size 2 = 2 * 2 ^ 30
      ∧ ((dram_dev_open_object (fun _ => some (fun _ => 0)) 2 sample_volume).2 = -ENOMEM
          ↔ (fun _ => some (fun _ => 0) : Nat → Option (Nat → Nat)) (dram_dev_open_size 2)
              = none)
      ∧ ((fun _ => some (fun _ => 0) : Nat → Option (Nat → Nat)) (dram_dev_open_size 2)
            ≠ none →
          (dram_dev_open_object (fun _ => some (fun _ => 0)) 2 sample_volume).2 = 0)
      ∧ ((dram_dev_open_object (fun _ => some (fun _ => 0)) 2 sample_volume).2 = -ENOMEM
          ∨ (dram_dev_open_object (fun _ => some (fun _ => 0)) 2 sample_volume).2 = 0)
      ∧ (dram_dev_open_object (fun _ => some (fun _ => 0)) 2 sample_volume).1.capacity = 2
      ∧ (dram_dev_open_object (fun _ => some (fun _ => 0)) 2 sample_volume).1.data
          = (fun _ => some (fun _ => 0) : Nat → Option (Nat → Nat))
              (dram_dev_open_size 2)) :=
  ⟨by decide, by decide,
   dram_dev_open_object_result (fun _ => some (fun _ => 0)) 2 sample_volume (by decide)⟩

/-! ## C12: the bound buffer reference -/

/-- C12: for every buffer reference `d`, null included, and every starting offset,
`dram_io_get_data` after `dram_io_set_data(io, d, offset)` returns `d`, whatever the bind
returned; a bind with a null buffer returns 0 and leaves the iterator unchanged. -/
theorem dram_io_get_data_set_data (dio : dram_io) (d : Option blk_data) (offset : Nat) :
    dram_io_get_data (dram_io_set_data dio d offset).1 = d
    ∧ (dram_io_set_data dio none offset).1.iter = dio.iter
    ∧ (dram_io_set_data dio none offset).2 = 0 := by
  refine ⟨?_, rfl, rfl⟩
  cases d with
  | none => rfl
  | some data =>
    simp only [dram_io_set_data, dram_io_get_data]
    split <;> rfl

/-- C12 (example with the short-buffer error): a 100-byte buffer bound at offset 101; the
bind returns `-ENOBUFS` and the buffer reference is stored all the same. -/
theorem dram_io_get_data_set_data_short :
    (dram_io_set_data { data := none, iter := { vec := [], idx := 0, offset := 0 } }
        (some { vec := [⟨0, 100⟩] }) 101).2 = -ENOBUFS
    ∧ dram_io_get_data
        (dram_io_set_data { data := none, iter := { vec := [], idx := 0, offset := 0 } }
          (some { vec := [⟨0, 100⟩] }) 101).1 = some { vec := [⟨0, 100⟩] } :=
  ⟨by decide,
   (dram_io_get_data_set_data { data := none, iter := { vec := [], idx := 0, offset := 0 } }
     (some { vec := [⟨0, 100⟩] }) 101).1⟩

/-! ## C13: the maximum size of one request -/

/-- C13: `dram_dev_get_max_io_size` returns 131072 (128 KiB) for every volume; the value
does not depend on the capacity or on the store. -/
theorem dram_dev_get_max_io_size_const (dobj : dram_object) :
    dram_dev_get_max_io_size dobj = 131072
    ∧ 131072 = 128 * 1024
    ∧ ∀ other : dram_object, dram_dev_get_max_io_size other = dram_dev_get_max_io_size dobj := by
  refine ⟨?_, by decide, fun other => ?_⟩
  · unfold dram_dev_get_max_io_size
    decide
  · rfl

/-! ## The states at the iteration boundaries -/

theorem dram_copy_iterate_succ (dir n : Nat) (s s1 : copy_state)
    (hc : dram_copy_cond s = true) (hs : copy_step dir s = some s1) :
    dram_copy_iterate dir (n + 1) s = dram_copy_iterate dir n s1 := by
  simp [dram_copy_iterate, hc, hs]

/-- A property of the locals that every iteration keeps holds at every iteration
boundary. -/
theorem dram_copy_iterate_inv (dir : Nat) (Inv : copy_state → Prop)
    (hstep : ∀ s s1, dram_copy_cond s = true → copy_step dir s = some s1 → Inv s → Inv s1) :
    ∀ n s s', dram_copy_iterate dir n s = some s' → Inv s → Inv s' := by
  intro n
  induction n with
  | zero =>
    intro s s' h hi
    simp only [dram_copy_iterate, Option.some.injEq] at h
    subst h
    exact hi
  | succ n ih =>
    intro s s' h hi
    by_cases hc : dram_copy_cond s = true
    · cases hs : copy_step dir s with
      | none => simp [dram_copy_iterate, hc, hs] at h
      | some s1 =>
        rw [dram_copy_iterate_succ dir n s s1 hc hs] at h
        exact ih s1 s' h (hstep s s1 hc hs hi)
    · simp [dram_copy_iterate, hc] at h

/-- The state in which the inner loop ends is the state after some number of
iterations. -/
theorem dram_copy_iterate_of_pages (dir fuel : Nat) (s s' : copy_state)
    (h : dram_copy_pages dir fuel s = some s') :
    ∃ n, dram_copy_iterate dir n s = some s' := by
  refine dram_copy_pages_ind dir (fun s s' => ∃ n, dram_copy_iterate dir n s = some s')
    ?_ ?_ fuel s s' h
  · intro s _
    exact ⟨0, rfl⟩
  · intro s s1 s' hc hs ih
    obtain ⟨n, hn⟩ := ih
    exact ⟨n + 1, by rw [dram_copy_iterate_succ dir n s s1 hc hs]; exact hn⟩

theorem dram_memcpy_other (dir : Nat) (data : Option (Nat → Nat)) (pages : Nat → Nat → Nat)
    (page offset addr length : Nat) (h1 : dir ≠ OCF_READ) (h2 : dir ≠ OCF_WRITE) :
    dram_memcpy dir data pages page offset addr length = some (data, pages) := by
  simp [dram_memcpy, h1, h2]

/-- What the `DO MEMCPY` statement leaves alone, by direction. -/
theorem dram_memcpy_frame (dir : Nat) (data data' : Option (Nat → Nat))
    (pages pages' : Nat → Nat → Nat) (page offset addr length : Nat)
    (h : dram_memcpy dir data pages page offset addr length = some (data', pages')) :
    (dir = OCF_READ → data' = data)
    ∧ (dir = OCF_WRITE → pages' = pages)
    ∧ (dir ≠ OCF_READ → dir ≠ OCF_WRITE → data' = data ∧ pages' = pages) := by
  refine ⟨?_, ?_, ?_⟩
  · intro hr
    subst hr
    cases data with
    | none => simp [dram_memcpy] at h
    | some store =>
      rw [dram_memcpy_read] at h
      simp only [Option.some.injEq, Prod.mk.injEq] at h
      exact h.1.symm
  · intro hw
    subst hw
    cases data with
    | none => simp [dram_memcpy, OCF_WRITE, OCF_READ] at h
    | some store =>
      rw [dram_memcpy_write] at h
      simp only [Option.some.injEq, Prod.mk.injEq] at h
      exact h.2.symm
  · intro h1 h2
    rw [dram_memcpy_other dir data pages page offset addr length h1 h2] at h
    simp only [Option.some.injEq, Prod.mk.injEq] at h
    exact ⟨h.1.symm, h.2.symm⟩

/-- An iteration goes through when the store is not null or nothing is copied. -/
theorem copy_step_some_of (dir : Nat) (s : copy_state)
    (hm : s.data.isSome = true ∨ (dir ≠ OCF_READ ∧ dir ≠ OCF_WRITE)) :
    ∃ s1, copy_step dir s = some s1
      ∧ (s1.data.isSome = true ∨ (dir ≠ OCF_READ ∧ dir ≠ OCF_WRITE)) := by
  rcases hm with hd | ⟨h1, h2⟩
  · obtain ⟨s1, hs, hd1⟩ := copy_step_some dir s hd
    exact ⟨s1, hs, Or.inl hd1⟩
  · unfold copy_step
    rw [dram_memcpy_other dir _ _ _ _ _ _ h1 h2]
    exact ⟨_, rfl, Or.inr ⟨h1, h2⟩⟩

/-- A positive current length makes the clamped length positive and the byte count go
down by it. -/
theorem copy_step_decreases (dir : Nat) (s s1 : copy_state)
    (hc : dram_copy_cond s = true) (hs : copy_step dir s = some s1)
    (hb : s.bytes < 2 ^ 32) (hpos : 0 < cas_io_iter_current_length s.iter) :
    1 ≤ copy_len s ∧ s1.bytes + copy_len s = s.bytes ∧ s1.bytes < s.bytes := by
  obtain ⟨b1, -⟩ := copy_step_bytes dir s s1 hs hb
  obtain ⟨-, c2⟩ := (dram_copy_cond_iff s).mp hc
  have h1 := copy_len_eq_min s
  have h2 := copy_len_le_bytes s
  omega

theorem is_next_move_iff (iter : bio_vec_iter) (n : Nat) :
    cas_io_iter_is_next (cas_io_iter_move iter n).1 = true ↔ n < iter.bytes_left := by
  simp only [cas_io_iter_is_next, cas_io_iter_move_bytes_left, decide_eq_true_eq]
  omega

/-- The current length is positive wherever the cursor can stand with bytes left, when it
is so after every move of fewer bytes than the buffer has left. -/
theorem current_length_pos_of_bounded (iter : bio_vec_iter)
    (h : ∀ n, n < iter.bytes_left →
      0 < cas_io_iter_current_length (cas_io_iter_move iter n).1) :
    ∀ n, cas_io_iter_is_next (cas_io_iter_move iter n).1 = true →
      0 < cas_io_iter_current_length (cas_io_iter_move iter n).1 := by
  intro n hn
  exact h n ((is_next_move_iff iter n).mp hn)

/-- Termination by the byte count: when the current length is positive wherever the
cursor can come to stand with bytes left, the inner loop ends after at most `bytes`
iterations. -/
theorem dram_copy_pages_terminates_pos (dir fuel : Nat) (s : copy_state)
    (hb : s.bytes < 2 ^ 32)
    (hm : s.data.isSome = true ∨ (dir ≠ OCF_READ ∧ dir ≠ OCF_WRITE))
    (hpos : ∀ n, cas_io_iter_is_next (cas_io_iter_move s.iter n).1 = true →
      0 < cas_io_iter_current_length (cas_io_iter_move s.iter n).1)
    (hf : s.bytes + 1 ≤ fuel) :
    ∃ s' n, n ≤ s.bytes ∧ dram_copy_iterate dir n s = some s'
      ∧ dram_copy_pages dir fuel s = some s' := by
  induction fuel generalizing s with
  | zero => omega
  | succ fuel ih =>
    rw [dram_copy_pages_succ]
    by_cases hc : dram_copy_cond s = true
    · obtain ⟨s1, hs, hm1⟩ := copy_step_some_of dir s hm
      obtain ⟨f1, -⟩ := copy_step_fields dir s s1 hs
      obtain ⟨b1, b2⟩ := copy_step_bytes dir s s1 hs hb
      have hnext : cas_io_iter_is_next s.iter = true := by
        simp only [dram_copy_cond, Bool.and_eq_true] at hc
        exact hc.1
      have hcur : 0 < cas_io_iter_current_length s.iter := by
        have := hpos 0
        rw [cas_io_iter_move_zero] at this
        exact this hnext
      obtain ⟨d1, d2, d3⟩ := copy_step_decreases dir s s1 hc hs hb hcur
      have hpos1 : ∀ n, cas_io_iter_is_next (cas_io_iter_move s1.iter n).1 = true →
          0 < cas_io_iter_current_length (cas_io_iter_move s1.iter n).1 := by
        intro n
        rw [f1, cas_io_iter_move_add]
        exact hpos _
      obtain ⟨s', n, hn, hit, hp⟩ := ih s1 b2 hm1 hpos1 (by omega)
      refine ⟨s', n + 1, by omega, ?_, ?_⟩
      · rw [dram_copy_iterate_succ dir n s s1 hc hs]
        exact hit
      · simp only [hc, if_true, hs, Option.some_bind]
        exact hp
    · exact ⟨s, 0, Nat.zero_le _, rfl, by simp [hc]⟩

/-! ## C14: termination of the copy loop -/

/-- C14: for every byte count, address and bound buffer whose iterator has a positive
current length wherever it reports a next segment (on a volume whose store is not null,
or for a direction that copies nothing), the nested loops of `dram_dev_submit_io` end
after at most `bytes` inner iterations and the submission returns; every inner iteration
has a clamped length of at least 1 and lowers the remaining byte count by it. -/
theorem dram_dev_submit_io_terminates (fl : cas_flag_tests) (fuel : Nat) (io : ocf_io)
    (st : dram_state) (hb : io.bytes < 2 ^ 32) (ha : io.addr < 2 ^ 64)
    (hmem : st.dobj.data.isSome = true ∨ (io.dir ≠ OCF_READ ∧ io.dir ≠ OCF_WRITE))
    (hpos : ∀ n, cas_io_iter_is_next (cas_io_iter_move st.dio.iter n).1 = true →
      0 < cas_io_iter_current_length (cas_io_iter_move st.dio.iter n).1)
    (hfuel : io.bytes + 3 ≤ fuel) :
    (∃ s n, n ≤ io.bytes
      ∧ dram_copy_iterate io.dir n (dram_copy_init io st) = some s
      ∧ dram_copy_cond s = false
      ∧ dram_copy_loop io.dir fuel (dram_copy_init io st) = some s)
    ∧ (∃ st', dram_dev_submit_io fl fuel io st = some st')
    ∧ (∀ n s s1, dram_copy_iterate io.dir n (dram_copy_init io st) = some s →
        dram_copy_cond s = true → copy_step io.dir s = some s1 →
        1 ≤ copy_len s ∧ s1.bytes + copy_len s = s.bytes ∧ s1.bytes < s.bytes) := by
  obtain ⟨k, rfl⟩ : ∃ k, fuel = k + 1 := ⟨fuel - 1, by omega⟩
  obtain ⟨s, n, hn, hit, hp⟩ := dram_copy_pages_terminates_pos io.dir k
    (dram_copy_init io st) hb hmem hpos (by simp only [dram_copy_init]; omega)
  obtain ⟨-, -, -, -, e5⟩ := dram_copy_pages_locals io.dir k _ s hp hb ha
  have hl := dram_copy_loop_of_pages io.dir k _ s hp rfl hb ha (by omega)
  refine ⟨⟨s, n, hn, hit, e5, hl⟩, ?_, ?_⟩
  · by_cases hf : dram_is_flush fl io = true
    · exact ⟨_, dram_dev_submit_io_flush fl _ io st hf⟩
    · have hf' : dram_is_flush fl io = false := by simpa using hf
      rw [dram_dev_submit_io_copy fl _ io st hf', hl]
      exact ⟨_, rfl⟩
  · intro m t t1 hm hc hs
    have hinv := dram_copy_iterate_inv io.dir
      (fun t => t.bytes < 2 ^ 32 ∧ ∃ j, t.iter = (cas_io_iter_move st.dio.iter j).1)
      (by
        intro a a1 _ has ⟨hba, j, hj⟩
        obtain ⟨f1, -⟩ := copy_step_fields io.dir a a1 has
        refine ⟨(copy_step_bytes io.dir a a1 has hba).2, j + copy_len a, ?_⟩
        rw [f1, hj, cas_io_iter_move_add])
      m (dram_copy_init io st) t hm ⟨hb, 0, by rw [cas_io_iter_move_zero]; rfl⟩
    obtain ⟨hbt, j, hj⟩ := hinv
    have hnext : cas_io_iter_is_next t.iter = true := by
      simp only [dram_copy_cond, Bool.and_eq_true] at hc
      exact hc.1
    have hcur : 0 < cas_io_iter_current_length t.iter := by
      rw [hj] at hnext ⊢
      exact hpos j hnext
    exact copy_step_decreases io.dir t t1 hc hs hbt hcur

/-- C14 (witness): a buffer of a 4-byte segment followed by an empty one, bound at offset
0, and a write of 10 bytes: wherever the iterator reports a next segment its current
length is positive, and the loop ends. -/
theorem dram_dev_submit_io_terminates_witness :
    (∃ s n, n ≤ 10
      ∧ dram_copy_iterate OCF_WRITE n
          (dram_copy_init { addr := 0, bytes := 10, dir := OCF_WRITE, flags := 0 }
            (sample_state [⟨0, 4⟩, ⟨0, 0⟩] 0)) = some s
      ∧ dram_copy_cond s = false
      ∧ dram_copy_loop OCF_WRITE 13
          (dram_copy_init { addr := 0, bytes := 10, dir := OCF_WRITE, flags := 0 }
            (sample_state [⟨0, 4⟩, ⟨0, 0⟩] 0)) = some s)
    ∧ ∃ st', dram_dev_submit_io sample_flag_tests 13
        { addr := 0, bytes := 10, dir := OCF_WRITE, flags := 0 }
        (sample_state [⟨0, 4⟩, ⟨0, 0⟩] 0) = some st' :=
  ⟨(dram_dev_submit_io_terminates sample_flag_tests 13
      { addr := 0, bytes := 10, dir := OCF_WRITE, flags := 0 }
      (sample_state [⟨0, 4⟩, ⟨0, 0⟩] 0) (by decide) (by decide) (Or.inl rfl)
      (current_length_pos_of_bounded _ (by decide)) (by decide)).1,
   (dram_dev_submit_io_terminates sample_flag_tests 13
      { addr := 0, bytes := 10, dir := OCF_WRITE, flags := 0 }
      (sample_state [⟨0, 4⟩, ⟨0, 0⟩] 0) (by decide) (by decide) (Or.inl rfl)
      (current_length_pos_of_bounded _ (by decide)) (by decide)).2.1⟩

/-! ## C15: conservation of the byte count -/

theorem sum_dram_memcpy_log_le (dir page offset addr length avail : Nat) :
    ((dram_memcpy_log dir page offset addr length avail).map (fun c => c.length)).sum
      ≤ length := by
  unfold dram_memcpy_log
  split <;> simp

/-- Whatever the direction, the lengths of the `memcpy` calls add up to at most the bytes
the loop passes. -/
theorem dram_copy_pages_copied_le (dir fuel : Nat) (s s' : copy_state)
    (h : dram_copy_pages dir fuel s = some s') (hb : s.bytes < 2 ^ 32) :
    (s'.copies.map (fun c => c.length)).sum
      ≤ (s.copies.map (fun c => c.length)).sum + copy_total s := by
  refine dram_copy_pages_ind dir
    (fun s s' => s.bytes < 2 ^ 32 →
      (s'.copies.map (fun c => c.length)).sum
        ≤ (s.copies.map (fun c => c.length)).sum + copy_total s)
    ?_ ?_ fuel s s' h hb
  · intro s _ _
    omega
  · intro s s1 s' hc hs ih hb
    obtain ⟨-, -, -, -, f5, -⟩ := copy_step_fields dir s s1 hs
    obtain ⟨b1, b2⟩ := copy_step_bytes dir s s1 hs hb
    obtain ⟨t1, t2⟩ := copy_total_step dir s s1 hs hb
    have h1 := ih b2
    rw [f5, List.map_append, List.sum_append] at h1
    have h2 := sum_dram_memcpy_log_le dir (cas_io_iter_current_page s.iter)
      (cas_io_iter_current_offset s.iter) s.addr (copy_len s)
      (cas_io_iter_current_length s.iter)
    omega

/-- The conservation law at every iteration boundary, in `uint64_t` arithmetic. -/
theorem dram_copy_iterate_conserves (dir n : Nat) (s s' : copy_state) (a0 b0 : Nat)
    (h : dram_copy_iterate dir n s = some s')
    (hs : s.bytes < 2 ^ 32 ∧ s.addr < 2 ^ 64
      ∧ (s.addr + 2 ^ 64 - a0) % 2 ^ 64 + s.bytes = b0)
    (ha0 : a0 < 2 ^ 64) (hb0 : b0 < 2 ^ 32) :
    s'.bytes < 2 ^ 32 ∧ s'.addr < 2 ^ 64
      ∧ (s'.addr + 2 ^ 64 - a0) % 2 ^ 64 + s'.bytes = b0 := by
  refine dram_copy_iterate_inv dir
    (fun t => t.bytes < 2 ^ 32 ∧ t.addr < 2 ^ 64
      ∧ (t.addr + 2 ^ 64 - a0) % 2 ^ 64 + t.bytes = b0) ?_ n s s' h hs
  intro t t1 _ ht ⟨hb, ha, hinv⟩
  obtain ⟨-, -, f3, -⟩ := copy_step_fields dir t t1 ht
  obtain ⟨b1, b2⟩ := copy_step_bytes dir t t1 ht hb
  have hl := copy_len_le_bytes t
  refine ⟨b2, by rw [f3]; exact Nat.mod_lt _ (by norm_num), ?_⟩
  rw [f3, b1]
  clear hs h
  norm_num at hb ha ha0 hb0 hinv ⊢
  omega

/-- C15: at every iteration boundary of the inner loop of `dram_dev_submit_io` (the state
after `n` iterations, for every `n`), `(addr - io->addr) + bytes == io->bytes` in
`uint64_t` arithmetic, and with plain subtraction when `io->addr + io->bytes` is below
`2^64`; the clamped length is at most `bytes`, so the 32-bit subtraction
`bytes -= length` does not wrap.  The loop ends at such a boundary, with
`io->bytes - bytes = min(io->bytes, R)`, and the bytes copied add up to at most
`min(io->bytes, R)`, `R` being the bytes left in the bound buffer at entry. -/
theorem dram_dev_submit_io_conserves (fl : cas_flag_tests) (fuel : Nat) (io : ocf_io)
    (st : dram_state) (hb : io.bytes < 2 ^ 32) (ha : io.addr < 2 ^ 64) :
    (∀ n s, dram_copy_iterate io.dir n (dram_copy_init io st) = some s →
      (s.addr + 2 ^ 64 - io.addr) % 2 ^ 64 + s.bytes = io.bytes
      ∧ (io.addr + io.bytes < 2 ^ 64 →
          io.addr ≤ s.addr ∧ (s.addr - io.addr) + s.bytes = io.bytes)
      ∧ copy_len s ≤ s.bytes
      ∧ (s.bytes + 2 ^ 32 - copy_len s) % 2 ^ 32 = s.bytes - copy_len s)
    ∧ (∀ s, dram_copy_loop io.dir fuel (dram_copy_init io st) = some s →
        (∃ n, dram_copy_iterate io.dir n (dram_copy_init io st) = some s)
        ∧ io.bytes - s.bytes = min io.bytes st.dio.iter.bytes_left
        ∧ (s.copies.map (fun c => c.length)).sum ≤ min io.bytes st.dio.iter.bytes_left)
    ∧ (∀ copies, dram_dev_submit_io_copies fl fuel io st = some copies →
        (copies.map (fun c => c.length)).sum ≤ min io.bytes st.dio.iter.bytes_left) := by
  have hloop : ∀ s, dram_copy_loop io.dir fuel (dram_copy_init io st) = some s →
      (∃ n, dram_copy_iterate io.dir n (dram_copy_init io st) = some s)
      ∧ io.bytes - s.bytes = min io.bytes st.dio.iter.bytes_left
      ∧ (s.copies.map (fun c => c.length)).sum ≤ min io.bytes st.dio.iter.bytes_left := by
    intro s hl
    obtain ⟨fuel', hp⟩ := dram_copy_loop_inv io.dir fuel _ s hl rfl hb ha
    obtain ⟨-, e2, -⟩ := dram_copy_pages_locals io.dir fuel' _ s hp hb ha
    have hsum := dram_copy_pages_copied_le io.dir fuel' _ s hp hb
    have htot : copy_total (dram_copy_init io st) = min io.bytes st.dio.iter.bytes_left := rfl
    rw [htot] at e2 hsum
    simp only [dram_copy_init, List.map_nil, List.sum_nil, Nat.zero_add] at e2 hsum
    refine ⟨dram_copy_iterate_of_pages io.dir fuel' _ s hp, ?_, hsum⟩
    omega
  refine ⟨?_, hloop, ?_⟩
  · intro n s h
    obtain ⟨hbs, has, hinv⟩ := dram_copy_iterate_conserves io.dir n _ s io.addr io.bytes h
      ⟨hb, ha, by
        simp only [dram_copy_init]
        norm_num⟩ ha hb
    have hl := copy_len_le_bytes s
    refine ⟨hinv, ?_, hl, ?_⟩
    · intro hno
      norm_num at hbs has hinv hno ha ⊢
      omega
    · norm_num at hbs ⊢
      omega
  · intro copies h
    by_cases hf : dram_is_flush fl io = true
    · simp only [dram_dev_submit_io_copies, hf, if_true, Option.some.injEq] at h
      subst h
      simp
    · have hf' : dram_is_flush fl io = false := by simpa using hf
      simp only [dram_dev_submit_io_copies, hf', Bool.false_eq_true, if_false] at h
      cases hl : dram_copy_loop io.dir fuel (dram_copy_init io st) with
      | none => simp [hl] at h
      | some s =>
        simp only [hl, Option.map_some', Option.some.injEq] at h
        subst h
        exact (hloop s hl).2.2

/-- C15 (witness): a read of 128 bytes at address 4096 into a buffer of 100 and 28 bytes;
after the first iteration `addr = 4196` and `bytes = 28`. -/
theorem dram_dev_submit_io_conserves_witness :
    (dram_copy_iterate OCF_READ 1
        (dram_copy_init { addr := 4096, bytes := 128, dir := OCF_READ, flags := 0 }
          (sample_state [⟨16, 100⟩, ⟨0, 28⟩] 0))).map (fun s => (s.addr, s.bytes))
      = some (4196, 28)
    ∧ ∀ n s, dram_copy_iterate OCF_READ n
        (dram_copy_init { addr := 4096, bytes := 128, dir := OCF_READ, flags := 0 }
          (sample_state [⟨16, 100⟩, ⟨0, 28⟩] 0)) = some s →
      (s.addr + 2 ^ 64 - 4096) % 2 ^ 64 + s.bytes = 128
      ∧ (4096 + 128 < 2 ^ 64 → 4096 ≤ s.addr ∧ (s.addr - 4096) + s.bytes = 128)
      ∧ copy_len s ≤ s.bytes
      ∧ (s.bytes + 2 ^ 32 - copy_len s) % 2 ^ 32 = s.bytes - copy_len s :=
  ⟨by decide,
   (dram_dev_submit_io_conserves sample_flag_tests 5
      { addr := 4096, bytes := 128, dir := OCF_READ, flags := 0 }
      (sample_state [⟨16, 100⟩, ⟨0, 28⟩] 0) (by decide) (by decide)).1⟩

/-! ## C16: what each direction leaves alone -/

/-- The frame of the copy loop at every iteration boundary. -/
theorem dram_copy_iterate_frame (dir n : Nat) (s s' : copy_state)
    (h : dram_copy_iterate dir n s = some s') :
    (dir = OCF_READ → s'.data = s.data)
    ∧ (dir = OCF_WRITE → s'.pages = s.pages)
    ∧ (dir ≠ OCF_READ → dir ≠ OCF_WRITE → s'.data = s.data ∧ s'.pages = s.pages) := by
  refine dram_copy_iterate_inv dir
    (fun t => (dir = OCF_READ → t.data = s.data)
      ∧ (dir = OCF_WRITE → t.pages = s.pages)
      ∧ (dir ≠ OCF_READ → dir ≠ OCF_WRITE → t.data = s.data ∧ t.pages = s.pages))
    ?_ n s s' h ⟨fun _ => rfl, fun _ => rfl, fun _ _ => ⟨rfl, rfl⟩⟩
  intro t t1 _ ht ⟨i1, i2, i3⟩
  obtain ⟨-, -, -, -, -, f6⟩ := copy_step_fields dir t t1 ht
  obtain ⟨m1, m2, m3⟩ := dram_memcpy_frame dir _ _ _ _ _ _ _ _ f6
  refine ⟨fun hr => ?_, fun hw => ?_, fun h1 h2 => ?_⟩
  · rw [m1 hr, i1 hr]
  · rw [m2 hw, i2 hw]
  · rw [(m3 h1 h2).1, (m3 h1 h2).2]
    exact i3 h1 h2

/-- C16 (amended): at every iteration boundary of the copy loop, and in the state
`dram_dev_submit_io` returns, a request of direction `OCF_READ` has left the backing
store unchanged, a request of direction `OCF_WRITE` has left the buffer memory unchanged,
and a request of any other direction has left both unchanged.  A request of another
direction that returns has completed once with code 0 and, unless it is a pure flush,
its iterator has advanced by `min(bytes, bytes left in the buffer)`; it does return when
the iterator's current length is positive wherever it reports a next segment. -/
theorem dram_dev_submit_io_direction_frame (fl : cas_flag_tests) (fuel : Nat) (io : ocf_io)
    (st : dram_state) (hb : io.bytes < 2 ^ 32) (ha : io.addr < 2 ^ 64) :
    (∀ n s, dram_copy_iterate io.dir n (dram_copy_init io st) = some s →
      (io.dir = OCF_READ → s.data = st.dobj.data)
      ∧ (io.dir = OCF_WRITE → s.pages = st.pages)
      ∧ (io.dir ≠ OCF_READ → io.dir ≠ OCF_WRITE →
          s.data = st.dobj.data ∧ s.pages = st.pages))
    ∧ (∀ st', dram_dev_submit_io fl fuel io st = some st' →
      (io.dir = OCF_READ → st'.dobj = st.dobj)
      ∧ (io.dir = OCF_WRITE → st'.pages = st.pages)
      ∧ (io.dir ≠ OCF_READ → io.dir ≠ OCF_WRITE →
          st'.dobj = st.dobj ∧ st'.pages = st.pages ∧ st'.ended = st.ended ++ [0]
          ∧ (dram_is_flush fl io = false →
              st'.dio.iter
                = (cas_io_iter_move st.dio.iter (min io.bytes st.dio.iter.bytes_left)).1)))
    ∧ (io.dir ≠ OCF_READ → io.dir ≠ OCF_WRITE →
        (∀ n, cas_io_iter_is_next (cas_io_iter_move st.dio.iter n).1 = true →
          0 < cas_io_iter_current_length (cas_io_iter_move st.dio.iter n).1) →
        io.bytes + 3 ≤ fuel →
        ∃ st', dram_dev_submit_io fl fuel io st = some st') := by
  refine ⟨?_, ?_, ?_⟩
  · intro n s h
    exact dram_copy_iterate_frame io.dir n _ s h
  · intro st' h
    have hend := dram_dev_submit_io_ended fl fuel io st st' hb ha h
    by_cases hf : dram_is_flush fl io = true
    · rw [dram_dev_submit_io_flush fl fuel io st hf] at h
      simp only [Option.some.injEq] at h
      subst h
      exact ⟨fun _ => rfl, fun _ => rfl, fun _ _ => ⟨rfl, rfl, rfl, fun hc => by
        rw [hf] at hc; exact absurd hc (by decide)⟩⟩
    · have hf' : dram_is_flush fl io = false := by simpa using hf
      obtain ⟨fuel', s, hp, -, hst⟩ := dram_dev_submit_io_inv fl fuel io st st' hf' hb ha h
      obtain ⟨n, hn⟩ := dram_copy_iterate_of_pages io.dir fuel' _ s hp
      obtain ⟨m1, m2, m3⟩ := dram_copy_iterate_frame io.dir n _ s hn
      obtain ⟨-, -, -, e4, -⟩ := dram_copy_pages_locals io.dir fuel' _ s hp hb ha
      simp only [dram_copy_init] at m1 m2 m3
      have hdobj : s.data = st.dobj.data → st'.dobj = st.dobj := by
        intro hd
        rw [hst]
        simp only [ocf_io_end, dram_copy_commit, hd]
      have hpages : s.pages = st.pages → st'.pages = st.pages := by
        intro hpg
        rw [hst]
        simp only [ocf_io_end, dram_copy_commit, hpg]
      refine ⟨fun hr => hdobj (m1 hr), fun hw => hpages (m2 hw), fun h1 h2 =>
        ⟨hdobj (m3 h1 h2).1, hpages (m3 h1 h2).2, hend, fun _ => ?_⟩⟩
      rw [hst]
      simp only [ocf_io_end, dram_copy_commit]
      exact e4
  · intro h1 h2 hpos hfuel
    by_cases hf : dram_is_flush fl io = true
    · exact ⟨_, dram_dev_submit_io_flush fl fuel io st hf⟩
    · have hf' : dram_is_flush fl io = false := by simpa using hf
      obtain ⟨k, rfl⟩ : ∃ k, fuel = k + 1 := ⟨fuel - 1, by omega⟩
      obtain ⟨s, n, -, -, hp⟩ := dram_copy_pages_terminates_pos io.dir k
        (dram_copy_init io st) hb (Or.inr ⟨h1, h2⟩) hpos
        (by simp only [dram_copy_init]; omega)
      have hl := dram_copy_loop_of_pages io.dir k _ s hp rfl hb ha (by omega)
      rw [dram_dev_submit_io_copy fl _ io st hf', hl]
      exact ⟨_, rfl⟩

/-- C16 (witness): a request of direction 2 for 6 bytes on a buffer of 4 and 4 bytes:
it completes with 0, the iterator has advanced by 6 bytes, and store and buffer are as
before. -/
theorem dram_dev_submit_io_direction_frame_witness :
    (dram_dev_submit_io sample_flag_tests 9
        { addr := 0, bytes := 6, dir := 2, flags := 0 }
        (sample_state [⟨0, 4⟩, ⟨0, 4⟩] 0)).map (fun s => (s.ended, s.dio.iter))
      = some ([0], { vec := [⟨0, 4⟩], idx := 1, offset := 2 })
    ∧ (∃ st', dram_dev_submit_io sample_flag_tests 9
        { addr := 0, bytes := 6, dir := 2, flags := 0 }
        (sample_state [⟨0, 4⟩, ⟨0, 4⟩] 0) = some st')
    ∧ ∀ st', dram_dev_submit_io sample_flag_tests 9
        { addr := 0, bytes := 6, dir := 2, flags := 0 }
        (sample_state [⟨0, 4⟩, ⟨0, 4⟩] 0) = some st' →
      st'.dobj = (sample_state [⟨0, 4⟩, ⟨0, 4⟩] 0).dobj
      ∧ st'.pages = (sample_state [⟨0, 4⟩, ⟨0, 4⟩] 0).pages :=
  ⟨by decide,
   (dram_dev_submit_io_direction_frame sample_flag_tests 9
      { addr := 0, bytes := 6, dir := 2, flags := 0 } (sample_state [⟨0, 4⟩, ⟨0, 4⟩] 0)
      (by decide) (by decide)).2.2 (by decide) (by decide)
      (current_length_pos_of_bounded _ (by decide)) (by decide),
   fun st' h =>
    ⟨((dram_dev_submit_io_direction_frame sample_flag_tests 9
        { addr := 0, bytes := 6, dir := 2, flags := 0 } (sample_state [⟨0, 4⟩, ⟨0, 4⟩] 0)
        (by decide) (by decide)).2.1 st' h).2.2 (by decide) (by decide) |>.1,
     ((dram_dev_submit_io_direction_frame sample_flag_tests 9
        { addr := 0, bytes := 6, dir := 2, flags := 0 } (sample_state [⟨0, 4⟩, ⟨0, 4⟩] 0)
        (by decide) (by decide)).2.1 st' h).2.2 (by decide) (by decide) |>.2.1⟩⟩

/-- C16 (counterexample): a request of direction 2 for 2 bytes on a buffer of an empty
segment followed by a 2-byte segment never completes; and a request of direction 2 whose
flags are a pure flush completes without its iterator having advanced, although 8 bytes
were asked for and 8 bytes are in the buffer. -/
theorem dram_dev_submit_io_direction_frame_fails :
    (¬ ∃ fuel st',
        dram_dev_submit_io sample_flag_tests fuel
          { addr := 0, bytes := 2, dir := 2, flags := 0 }
          (sample_state [⟨0, 0⟩, ⟨0, 2⟩] 0) = some st')
    ∧ (dram_dev_submit_io sample_flag_tests 4
          { addr := 0, bytes := 8, dir := 2, flags := 1 }
          (sample_state [⟨0, 8⟩] 0)).map (fun s => (s.ended, s.dio.iter))
        = some ([0], (sample_state [⟨0, 8⟩] 0).dio.iter)
    ∧ (sample_state [⟨0, 8⟩] 0).dio.iter
        ≠ (cas_io_iter_move (sample_state [⟨0, 8⟩] 0).dio.iter 8).1 := by
  refine ⟨?_, by decide, by decide⟩
  rintro ⟨fuel, st', h⟩
  rw [dram_dev_submit_io_hang sample_flag_tests fuel _ _ (by decide) (by decide) (by decide)
    (by decide) (by decide)] at h
  exact Option.noConfusion h

end DramDev
